import Mathlib

/-! Tic-tac-toe game core and example bot: a shallow embedding of
`tictactoe/game.go` and `examplebot/bot.go`.

The Go package keeps one mutable `GameState`; every method that mutates it is
embedded as a function returning the state after the call, paired with the
error value (`none` for the `nil` error).  The Go type `int` is embedded as
`Int`: the only arithmetic in the two packages is `1 - x` on a player ID, and
no statement below depends on that subtraction overflowing; where the width of
`int` matters (decoding a number) the 64-bit range is stated.
-/

namespace TicTacToe

/-- The Go type `[9]int`: nine cells, indexed 0..8. -/
abbrev Board := Fin 9 → Int

/-- The Go type `json.RawMessage`: the bytes of one JSON document. -/
abbrev RawMessage := String

/-- The Go struct `GameState`.  `PlayerSymbols` is a Go `map[int]int`, kept as
an association list: `m[k]` is the value of the first entry with key `k`, or
`0` when there is none, and `range m` visits the entries in list order (Go
leaves that order unspecified). -/
structure GameState where
  Board : Board
  CurrentPlayerID : Int
  PlayerSymbols : List (Int × Int)
  IsGameEnded : Bool
  WinnerPlayerID : Int
  PossibleActions : List RawMessage

/-- The Go struct `MoveAction`, the only implementation of `Action`. -/
structure MoveAction where
  PlayerID : Int
  Position : Int
deriving DecidableEq, Repr

/-- Map read `m[k]` of a Go `map[int]int`: the zero value when `k` is absent. -/
def mapGet (m : List (Int × Int)) (k : Int) : Int :=
  match m.find? (fun e => e.1 == k) with
  | some e => e.2
  | none => 0

/-- The method `MoveAction.GetName`. -/
def MoveAction.GetName (_a : MoveAction) : String := "PLACE_SYMBOL"

/-- The method `MoveAction.GetPlayerID`. -/
def MoveAction.GetPlayerID (a : MoveAction) : Int := a.PlayerID

/-- The method `MoveAction.IsPossible`: turn check, range check, then the cell read.  The
cell read happens only on the branch where `0 ≤ Position ≤ 8`. -/
def MoveAction.IsPossible (a : MoveAction) (g : GameState) : Bool :=
  if a.PlayerID ≠ g.CurrentPlayerID then false
  else if h : a.Position < 0 ∨ a.Position > 8 then false
  else g.Board ⟨a.Position.toNat, by omega⟩ == 0

/-- The table `winPatterns` of `checkGameEnd`: rows, columns, diagonals. -/
def winPatterns : List (Fin 9 × Fin 9 × Fin 9) :=
  [(0, 1, 2), (3, 4, 5), (6, 7, 8),
   (0, 3, 6), (1, 4, 7), (2, 5, 8),
   (0, 4, 8), (2, 4, 6)]

/-- The condition of the `if` inside the pattern loop of `checkGameEnd`. -/
def lineWins (b : Board) (p : Fin 9 × Fin 9 × Fin 9) : Prop :=
  b p.1 ≠ 0 ∧ b p.1 = b p.2.1 ∧ b p.2.1 = b p.2.2

instance (b : Board) (p : Fin 9 × Fin 9 × Fin 9) : Decidable (lineWins b p) := by
  unfold lineWins; infer_instance

/-- The inner loop of `checkGameEnd`: the first player ID whose symbol is `s`,
or `none` when the loop falls through without returning. -/
def findPlayer (m : List (Int × Int)) (s : Int) : Option Int :=
  match m.find? (fun e => e.2 == s) with
  | some e => some e.1
  | none => none

/-- The pattern loop of `checkGameEnd` over the remaining patterns.  The flag
is `true` when the loop executed `return`.  When a line wins but no player owns
its mark, `IsGameEnded` stays set and the loop goes on to the next pattern. -/
def checkPatterns (g : GameState) : List (Fin 9 × Fin 9 × Fin 9) → GameState × Bool
  | [] => (g, false)
  | p :: rest =>
    if lineWins g.Board p then
      let g1 := { g with IsGameEnded := true }
      match findPlayer g1.PlayerSymbols (g1.Board p.1) with
      | some playerID => ({ g1 with WinnerPlayerID := playerID }, true)
      | none => checkPatterns g1 rest
    else checkPatterns g rest

/-- The draw loop of `checkGameEnd`: `full` stays `true` iff no cell is `0`. -/
def boardFull (b : Board) : Bool :=
  (List.finRange 9).all (fun i => b i != 0)

/-- The method `GameState.checkGameEnd`. -/
def GameState.checkGameEnd (g : GameState) : GameState :=
  match checkPatterns g winPatterns with
  | (g1, true) => g1
  | (g1, false) =>
    if boardFull g1.Board then { g1 with IsGameEnded := true, WinnerPlayerID := -1 }
    else g1

/-- The method `MoveAction.Run`: the state after the call and the returned error.  The
board write is reached only when `IsPossible` held, which bounds the index. -/
def MoveAction.Run (a : MoveAction) (g : GameState) : GameState × Option String :=
  if h : a.IsPossible g = true then
    let i : Fin 9 := ⟨a.Position.toNat, by
      unfold MoveAction.IsPossible at h
      split at h
      · exact absurd h (by simp)
      · split at h
        · exact absurd h (by simp)
        · omega⟩
    let g1 := { g with Board := Function.update g.Board i (mapGet g.PlayerSymbols a.PlayerID) }
    (g1.checkGameEnd, none)
  else (g, some "move not possible")

/-- The function `NewTwoPlayerGame`. -/
def NewTwoPlayerGame : GameState :=
  { Board := fun _ => 0
    CurrentPlayerID := 0
    PlayerSymbols := [(0, 1), (1, 2)]
    IsGameEnded := false
    WinnerPlayerID := -1
    PossibleActions := [] }

/-- The method `GameState.CalculatePossibleActions`. -/
def GameState.CalculatePossibleActions (g : GameState) : List MoveAction :=
  if g.IsGameEnded then []
  else
    (List.finRange 9).filterMap (fun i =>
      if g.Board i = 0 then
        some { PlayerID := g.CurrentPlayerID, Position := ((i : Nat) : Int) }
      else none)

/-- The call `json.Marshal(action)` on a `MoveAction`: the record with the two
tagged fields in declaration order, integers in decimal.  It cannot fail on a
struct of two ints, so the error is always `nil`. -/
def jsonMarshal (a : MoveAction) : Except String RawMessage :=
  .ok ("\x7b\"playerID\":" ++ toString a.PlayerID ++ ",\"position\":" ++
    toString a.Position ++ "\x7d")

/-- The function `serializeActions`: the actions whose marshalling returned no error. -/
def serializeActions (actions : List MoveAction) : List RawMessage :=
  actions.filterMap (fun action =>
    match jsonMarshal action with
    | .ok bs => some bs
    | .error _ => none)

/-- The method `GameState.RunAction`.  A `nil` action is `none`. -/
def GameState.RunAction (g : GameState) (action : Option MoveAction) :
    GameState × Option String :=
  match action with
  | none => (g, none)
  | some a =>
    if g.IsGameEnded then (g, some "game is already ended")
    else if !a.IsPossible g then (g, some "action not possible")
    else
      match a.Run g with
      | (g1, some err) => (g1, some err)
      | (g1, none) =>
        let g2 := if !g1.IsGameEnded then
          { g1 with CurrentPlayerID := 1 - g1.CurrentPlayerID } else g1
        ({ g2 with PossibleActions := serializeActions g2.CalculatePossibleActions }, none)

/-- The method `GameState.Initialize`. -/
def GameState.Initialize (g : GameState) : GameState :=
  { g with PossibleActions := serializeActions g.CalculatePossibleActions }

/-- The function `New`. -/
def New : GameState := NewTwoPlayerGame.Initialize

/-- The states a host can observe: `New()` followed by any sequence of
`RunAction` calls, failed calls and `nil` actions included. -/
inductive Reachable : GameState → Prop
  | new : Reachable New
  | step (g : GameState) (action : Option MoveAction) :
      Reachable g → Reachable (g.RunAction action).1

/-- Runs a list of moves with `RunAction`, ignoring the returned errors, as the
loops of `TestWinCondition` and `TestDrawCondition` do. -/
def runMoves (g : GameState) : List MoveAction → GameState
  | [] => g
  | a :: rest => runMoves (g.RunAction (some a)).1 rest

/-- The moves of `TestWinCondition`. -/
def winMoves : List MoveAction :=
  [⟨0, 0⟩, ⟨1, 3⟩, ⟨0, 1⟩, ⟨1, 4⟩, ⟨0, 2⟩]

/-- The moves of `TestDrawCondition`. -/
def drawMoves : List MoveAction :=
  [⟨0, 0⟩, ⟨1, 1⟩, ⟨0, 2⟩, ⟨1, 4⟩, ⟨0, 3⟩, ⟨1, 5⟩, ⟨0, 7⟩, ⟨1, 6⟩, ⟨0, 8⟩]

/-- Nine legal moves whose last one fills the board and completes the top row
for player 0 at the same time. -/
def lastCellWinMoves : List MoveAction :=
  [⟨0, 0⟩, ⟨1, 3⟩, ⟨0, 1⟩, ⟨1, 4⟩, ⟨0, 5⟩, ⟨1, 7⟩, ⟨0, 6⟩, ⟨1, 8⟩, ⟨0, 2⟩]

/-- The state of `TestWinCondition` just before its winning move. -/
def beforeWinningMove : GameState := runMoves New winMoves.dropLast

/-- The state of `TestMoveAction` after its first, successful move. -/
def afterFirstMove : GameState := (New.RunAction (some ⟨0, 0⟩)).1

/-- The legality predicate as the specification words it, with its four
conditions: not terminal, acting player is the current player, position in
range, cell empty. -/
def specLegal (a : MoveAction) (g : GameState) : Prop :=
  g.IsGameEnded = false ∧ a.PlayerID = g.CurrentPlayerID ∧
    0 ≤ a.Position ∧ a.Position ≤ 8 ∧
    ∃ j : Fin 9, ((j : Nat) : Int) = a.Position ∧ g.Board j = 0

instance (a : MoveAction) (g : GameState) : Decidable (specLegal a g) := by
  unfold specLegal; infer_instance

/-- Number of cells of the board that hold the mark `m`. -/
def countMark (b : Board) (m : Int) : Nat :=
  (Finset.univ.filter (fun i : Fin 9 => b i = m)).card

/-- Some line of `winPatterns` is filled with three equal non-empty marks. -/
def hasWinningLine (b : Board) : Prop :=
  ∃ p ∈ winPatterns, lineWins b p

/-- The mark `m` fills the three cells of the line `p`. -/
def lineFilledWith (b : Board) (m : Int) (p : Fin 9 × Fin 9 × Fin 9) : Prop :=
  b p.1 = m ∧ b p.2.1 = m ∧ b p.2.2 = m

/-- No cell of the board is empty. -/
def noEmptyCell (b : Board) : Prop :=
  ∀ i : Fin 9, b i ≠ 0

instance (b : Board) : Decidable (hasWinningLine b) := by
  unfold hasWinningLine; infer_instance

instance (b : Board) (m : Int) (p : Fin 9 × Fin 9 × Fin 9) :
    Decidable (lineFilledWith b m p) := by
  unfold lineFilledWith; infer_instance

instance (b : Board) : Decidable (noEmptyCell b) := by
  unfold noEmptyCell; infer_instance

/-- The facts that hold of every state a host can observe; `inv_of_reachable`
proves them by induction over the calls made. -/
structure Inv (g : GameState) : Prop where
  symbols : g.PlayerSymbols = [(0, 1), (1, 2)]
  cells : ∀ i, g.Board i = 0 ∨ g.Board i = 1 ∨ g.Board i = 2
  cache : g.PossibleActions = serializeActions g.CalculatePossibleActions
  active : g.IsGameEnded = false →
    g.WinnerPlayerID = -1 ∧ ¬ hasWinningLine g.Board ∧ ¬ noEmptyCell g.Board ∧
      ((g.CurrentPlayerID = 0 ∧ countMark g.Board 1 = countMark g.Board 2) ∨
        (g.CurrentPlayerID = 1 ∧ countMark g.Board 1 = countMark g.Board 2 + 1))
  ended : g.IsGameEnded = true →
    ((g.CurrentPlayerID = 0 ∧ countMark g.Board 1 = countMark g.Board 2 + 1) ∨
        (g.CurrentPlayerID = 1 ∧ countMark g.Board 1 = countMark g.Board 2)) ∧
      ((g.WinnerPlayerID = -1 ∧ ¬ hasWinningLine g.Board ∧ noEmptyCell g.Board) ∨
        (g.WinnerPlayerID = g.CurrentPlayerID ∧
          (∃ p ∈ winPatterns, lineFilledWith g.Board (g.CurrentPlayerID + 1) p) ∧
          ∀ p ∈ winPatterns, lineWins g.Board p → g.Board p.1 = g.CurrentPlayerID + 1))

/-! ## The client view -/

/-- The Go struct `ClientGameState`. -/
structure ClientGameState where
  Board : Board
  CurrentPlayerID : Int
  IsGameEnded : Bool
  WinnerPlayerID : Int
  PossibleActions : List RawMessage
  YouPlayerID : Int
  ThemPlayerID : Int
  YourSymbol : Int
  TheirSymbol : Int

/-- The method `GameState.ToClientGameState`: the receiver after the call (the
method assigns to none of its fields) and the returned snapshot. -/
def GameState.ToClientGameState (g : GameState) (playerID : Int) :
    GameState × ClientGameState :=
  let opponentID := 1 - playerID
  (g,
    { Board := g.Board
      CurrentPlayerID := g.CurrentPlayerID
      IsGameEnded := g.IsGameEnded
      WinnerPlayerID := g.WinnerPlayerID
      PossibleActions := g.PossibleActions
      YouPlayerID := playerID
      ThemPlayerID := opponentID
      YourSymbol := mapGet g.PlayerSymbols playerID
      TheirSymbol := mapGet g.PlayerSymbols opponentID })

/-! ## The decoder `json.Unmarshal` of the Go standard library

`DeserializeAction` hands its input to `json.Unmarshal` with a `MoveAction` as
target.  The model below follows `encoding/json`: the input is first checked to
be one JSON value (RFC 8259, at most 10000 nested containers) and only then
decoded, so a syntax error leaves the target untouched.  The input bytes are
taken as text, one `Char` per code point. -/

/-- A JSON value.  A number keeps its text, which the decoder hands to
`strconv.ParseInt`. -/
inductive JValue where
  | null : JValue
  | bool : Bool → JValue
  | num : List Char → JValue
  | str : List Char → JValue
  | arr : List JValue → JValue
  | obj : List (List Char × JValue) → JValue

instance : Inhabited JValue := ⟨JValue.null⟩

/-- JSON white space: space, tab, carriage return, line feed. -/
def isSpace (c : Char) : Bool :=
  c == ' ' || c == '\t' || c == '\r' || c == '\n'

/-- Drops leading white space. -/
def skipSpace : List Char → List Char
  | [] => []
  | c :: cs => if isSpace c then skipSpace cs else c :: cs

/-- Where the scanner stands inside a string literal: in plain text, right
after a backslash, or inside `\u` with `k` hex digits still to read and the
value `v` read so far. -/
inductive StrMode where
  | plain : StrMode
  | escape : StrMode
  | hex : Nat → Nat → StrMode

/-- Value of a hexadecimal digit. -/
def hexVal (c : Char) : Option Nat :=
  if '0' ≤ c ∧ c ≤ '9' then some (c.toNat - 48)
  else if 'a' ≤ c ∧ c ≤ 'f' then some (c.toNat - 87)
  else if 'A' ≤ c ∧ c ≤ 'F' then some (c.toNat - 55)
  else none

/-- The character a one-letter escape stands for. -/
def unescape (c : Char) : Option Char :=
  if c = '\x22' then some '\x22'
  else if c = '\x5c' then some '\x5c'
  else if c = '/' then some '/'
  else if c = 'b' then some (Char.ofNat 8)
  else if c = 'f' then some (Char.ofNat 12)
  else if c = 'n' then some '\n'
  else if c = 'r' then some '\r'
  else if c = 't' then some '\t'
  else none

/-- The character of a `\u` escape.  A surrogate half becomes U+FFFD; the
decoder joins a valid pair of halves into one character outside the basic
plane instead, which makes no difference to whether a key names a field. -/
def escapedChar (v : Nat) : Char :=
  if 0xD800 ≤ v ∧ v ≤ 0xDFFF then Char.ofNat 0xFFFD else Char.ofNat v

/-- Scans a string literal after its opening quote: the decoded text (built in
reverse in `acc`) and the input after the closing quote.  Control characters
below U+0020 may not appear unescaped. -/
def scanString (mode : StrMode) (acc : List Char) : List Char → Option (List Char × List Char)
  | [] => none
  | c :: rest =>
    match mode with
    | .plain =>
      if c = '\x22' then some (acc.reverse, rest)
      else if c = '\x5c' then scanString .escape acc rest
      else if c.toNat < 32 then none
      else scanString .plain (c :: acc) rest
    | .escape =>
      if c = 'u' then scanString (.hex 4 0) acc rest
      else
        match unescape c with
        | some e => scanString .plain (e :: acc) rest
        | none => none
    | .hex k v =>
      match hexVal c with
      | none => none
      | some d =>
        if k ≤ 1 then scanString .plain (escapedChar (16 * v + d) :: acc) rest
        else scanString (.hex (k - 1) (16 * v + d)) acc rest

/-- The longest run of decimal digits at the front, and what follows it. -/
def takeDigits : List Char → List Char × List Char
  | [] => ([], [])
  | c :: cs =>
    if c.isDigit then ((c :: (takeDigits cs).1), (takeDigits cs).2)
    else ([], c :: cs)

/-- The exponent part of a number, if the input goes on with one. -/
def scanExponent (text : List Char) (cs : List Char) : Option (List Char × List Char) :=
  match cs with
  | [] => some (text, [])
  | c :: rest =>
    if c = 'e' ∨ c = 'E' then
      match rest with
      | [] => none
      | s :: rest2 =>
        if s = '+' ∨ s = '-' then
          if (takeDigits rest2).1 = [] then none
          else some (text ++ c :: s :: (takeDigits rest2).1, (takeDigits rest2).2)
        else if (takeDigits rest).1 = [] then none
        else some (text ++ c :: (takeDigits rest).1, (takeDigits rest).2)
    else some (text, cs)

/-- The fraction part of a number, if the input goes on with one, then the
exponent part. -/
def scanFraction (text : List Char) (cs : List Char) : Option (List Char × List Char) :=
  match cs with
  | [] => some (text, [])
  | c :: rest =>
    if c = '.' then
      if (takeDigits rest).1 = [] then none
      else scanExponent (text ++ c :: (takeDigits rest).1) (takeDigits rest).2
    else scanExponent text cs

/-- The integer part of a number after the optional minus sign: a single `0`,
or a digit 1..9 followed by digits. -/
def scanInteger (text : List Char) (cs : List Char) : Option (List Char × List Char) :=
  match cs with
  | [] => none
  | c :: rest =>
    if c = '0' then scanFraction (text ++ [c]) rest
    else if c.isDigit then
      scanFraction (text ++ c :: (takeDigits rest).1) (takeDigits rest).2
    else none

/-- Scans a number literal: its text and the input after it. -/
def scanNumber (cs : List Char) : Option (List Char × List Char) :=
  match cs with
  | [] => none
  | c :: rest => if c = '-' then scanInteger [c] rest else scanInteger [] cs

/-- Drops the literal `lit` from the front of the input, if it is there. -/
def dropLit (lit : List Char) (cs : List Char) : Option (List Char) :=
  if lit.isPrefixOf cs then some (cs.drop lit.length) else none

mutual

/-- Parses one JSON value at the front of the input (no leading white space):
the value and the input after it.  `depth` counts the containers already
open; the fuel bounds the length of a chain of calls, each of which consumes a
character first. -/
def parseValue : Nat → Nat → List Char → Option (JValue × List Char)
  | 0, _, _ => none
  | fuel + 1, depth, cs =>
    match cs with
    | [] => none
    | c :: rest =>
      if c = '\x7b' then
        if 10000 ≤ depth then none
        else
          match skipSpace rest with
          | [] => none
          | d :: rest2 =>
            if d = '\x7d' then some (.obj [], rest2)
            else parseMembers fuel (depth + 1) (d :: rest2) []
      else if c = '\x5b' then
        if 10000 ≤ depth then none
        else
          match skipSpace rest with
          | [] => none
          | d :: rest2 =>
            if d = '\x5d' then some (.arr [], rest2)
            else parseItems fuel (depth + 1) (d :: rest2) []
      else if c = '\x22' then
        match scanString .plain [] rest with
        | some (s, rest2) => some (.str s, rest2)
        | none => none
      else if c = 't' then
        match dropLit ['t', 'r', 'u', 'e'] cs with
        | some rest2 => some (.bool true, rest2)
        | none => none
      else if c = 'f' then
        match dropLit ['f', 'a', 'l', 's', 'e'] cs with
        | some rest2 => some (.bool false, rest2)
        | none => none
      else if c = 'n' then
        match dropLit ['n', 'u', 'l', 'l'] cs with
        | some rest2 => some (.null, rest2)
        | none => none
      else
        match scanNumber cs with
        | some (text, rest2) => some (.num text, rest2)
        | none => none

/-- Parses the members of an object from a key on, up to the closing brace;
`acc` holds the members read so far, last first. -/
def parseMembers : Nat → Nat → List Char → List (List Char × JValue) →
    Option (JValue × List Char)
  | 0, _, _, _ => none
  | fuel + 1, depth, cs, acc =>
    match cs with
    | [] => none
    | q :: rest =>
      if q = '\x22' then
        match scanString .plain [] rest with
        | none => none
        | some (key, rest1) =>
          match skipSpace rest1 with
          | [] => none
          | colon :: rest2 =>
            if colon = ':' then
              match parseValue fuel depth (skipSpace rest2) with
              | none => none
              | some (v, rest3) =>
                match skipSpace rest3 with
                | [] => none
                | sep :: rest4 =>
                  if sep = ',' then
                    parseMembers fuel depth (skipSpace rest4) ((key, v) :: acc)
                  else if sep = '\x7d' then some (.obj ((key, v) :: acc).reverse, rest4)
                  else none
            else none
      else none

/-- Parses the items of an array from a value on, up to the closing bracket. -/
def parseItems : Nat → Nat → List Char → List JValue → Option (JValue × List Char)
  | 0, _, _, _ => none
  | fuel + 1, depth, cs, acc =>
    match parseValue fuel depth cs with
    | none => none
    | some (v, rest) =>
      match skipSpace rest with
      | [] => none
      | sep :: rest2 =>
        if sep = ',' then parseItems fuel depth (skipSpace rest2) (v :: acc)
        else if sep = '\x5d' then some (.arr (v :: acc).reverse, rest2)
        else none

end

/-- The validity check of `json.Unmarshal`: the input is white space, one JSON
value, white space.  On a JSON text a chain of parser calls is no longer than
the text (a call consumes a character first, or opens a container that a later
character closes), so the fuel does not run out there. -/
def parseJSON (data : List Char) : Option JValue :=
  match parseValue (data.length + 1) 0 (skipSpace data) with
  | none => none
  | some (v, rest) => if skipSpace rest = [] then some v else none

/-- The two fields of `MoveAction`, by their JSON names `playerID` and
`position`. -/
inductive Field where
  | playerID : Field
  | position : Field
deriving DecidableEq

/-- Case folding of one character of a key, as the decoder does it: an ASCII
letter folds to upper case, and the two characters outside ASCII whose case
orbit meets ASCII fold into it (U+017F to `S`, U+212A to `K`). -/
def foldKeyChar (c : Char) : Char :=
  if 'a' ≤ c ∧ c ≤ 'z' then Char.ofNat (c.toNat - 32)
  else if c = Char.ofNat 0x17F then 'S'
  else if c = Char.ofNat 0x212A then 'K'
  else c

/-- The field a key names: an exact match of the JSON name first, else a match
up to case. -/
def matchField (key : List Char) : Option Field :=
  if key = ['p', 'l', 'a', 'y', 'e', 'r', 'I', 'D'] then some .playerID
  else if key = ['p', 'o', 's', 'i', 't', 'i', 'o', 'n'] then some .position
  else if key.map foldKeyChar = ['P', 'L', 'A', 'Y', 'E', 'R', 'I', 'D'] then some .playerID
  else if key.map foldKeyChar = ['P', 'O', 'S', 'I', 'T', 'I', 'O', 'N'] then some .position
  else none

/-- The number written by a run of decimal digits. -/
def digitsValue (ds : List Char) : Nat :=
  ds.foldl (fun acc c => 10 * acc + (c.toNat - 48)) 0

/-- The call `strconv.ParseInt(s, 10, 64)`: an optional sign, then one or more
decimal digits, and a value in the range of `int64`. -/
def parseInt64 (text : List Char) : Option Int :=
  match text with
  | [] => none
  | c :: rest =>
    let neg := c = '-'
    let ds := if c = '-' ∨ c = '+' then rest else text
    if ds = [] ∨ ds.all Char.isDigit = false then none
    else if neg then
      if digitsValue ds ≤ 2 ^ 63 then some (-(digitsValue ds : Int)) else none
    else if digitsValue ds < 2 ^ 63 then some (digitsValue ds : Int) else none

/-- Storing a JSON value into an `int` field that holds `old`: `null` leaves
the field alone, a number must pass `strconv.ParseInt`, anything else is a type
error (`none`). -/
def storeInt (v : JValue) (old : Int) : Option Int :=
  match v with
  | .null => some old
  | .num text => parseInt64 text
  | _ => none

/-- Decodes the members of an object into the target, in order, so a repeated
key overwrites.  A key that names no field is skipped.  A type error is saved
(the flag) and decoding goes on with the next member. -/
def decodeMembers : List (List Char × JValue) → MoveAction → Bool → MoveAction × Bool
  | [], target, failed => (target, failed)
  | (key, v) :: rest, target, failed =>
    match matchField key with
    | none => decodeMembers rest target failed
    | some .playerID =>
      match storeInt v target.PlayerID with
      | some n => decodeMembers rest { target with PlayerID := n } failed
      | none => decodeMembers rest target true
    | some .position =>
      match storeInt v target.Position with
      | some n => decodeMembers rest { target with Position := n } failed
      | none => decodeMembers rest target true

/-- The call `json.Unmarshal(data, &target)` for a `MoveAction` target: the
target after the call and the error.  The two kinds of error the decoder
returns, `*json.SyntaxError` and `*json.UnmarshalTypeError`, are told apart by
their type only; `int` is taken to be 64 bits wide. -/
def jsonUnmarshal (data : RawMessage) (target : MoveAction) : MoveAction × Option String :=
  match parseJSON data.data with
  | none => (target, some "json: syntax error")
  | some .null => (target, none)
  | some (.obj members) =>
    match decodeMembers members target false with
    | (t, false) => (t, none)
    | (t, true) => (t, some "json: cannot unmarshal into Go struct field")
  | some _ => (target, some "json: cannot unmarshal into Go value of type MoveAction")

/-- The function `DeserializeAction`. -/
def DeserializeAction (data : RawMessage) : Except String MoveAction :=
  match jsonUnmarshal data { PlayerID := 0, Position := 0 } with
  | (moveAction, none) => .ok moveAction
  | (_, some _) => .error "unknown action type"

instance {α : Type} [DecidableEq α] : DecidableEq (Except String α)
  | .ok a, .ok b =>
    if h : a = b then isTrue (congrArg Except.ok h)
    else isFalse (fun e => h (Except.ok.inj e))
  | .error a, .error b =>
    if h : a = b then isTrue (congrArg Except.error h)
    else isFalse (fun e => h (Except.error.inj e))
  | .ok _, .error _ => isFalse (fun e => nomatch e)
  | .error _, .ok _ => isFalse (fun e => nomatch e)


/-! ## The example bot

A call of `SimpleBot.ChooseAction` yields `some (some a)` when it returns the
action `a`, `some none` when it returns `nil`, and `none` when it stops with
the run-time panic "index out of range". -/

/-- The method `SimpleBot.isWinningMove`.  The write `testBoard[position]` is
not guarded, so a position outside 0..8 panics (`none`).  The table of lines in
`bot.go` is the same as `winPatterns` of `checkGameEnd`. -/
def SimpleBot.isWinningMove (board : Board) (position : Int) (symbol : Int) : Option Bool :=
  if h : 0 ≤ position ∧ position ≤ 8 then
    let testBoard := Function.update board ⟨position.toNat, by omega⟩ symbol
    some (winPatterns.any (fun pattern =>
      testBoard pattern.1 == symbol && testBoard pattern.2.1 == symbol &&
        testBoard pattern.2.2 == symbol))
  else none

/-- The loop of `ChooseAction` that deserializes the possible actions and keeps
those for which `DeserializeAction` returned no error. -/
def SimpleBot.decodeActions (raws : List RawMessage) : List MoveAction :=
  raws.filterMap (fun rawAction =>
    match DeserializeAction rawAction with
    | .ok action => some action
    | .error _ => none)

/-- The two loops of `ChooseAction` over `actions` that test `isWinningMove`
with a symbol: the first action for which it is true, `some none` when the
loop ends without returning, `none` when `isWinningMove` panics. -/
def SimpleBot.winningLoop (board : Board) (symbol : Int) :
    List MoveAction → Option (Option MoveAction)
  | [] => some none
  | moveAction :: rest =>
    match SimpleBot.isWinningMove board moveAction.Position symbol with
    | none => none
    | some true => some (some moveAction)
    | some false => SimpleBot.winningLoop board symbol rest

/-- The inner loop over `actions` of the centre and corner rules: the first
action at the given position. -/
def SimpleBot.actionAt (actions : List MoveAction) (position : Int) : Option MoveAction :=
  actions.find? (fun moveAction => moveAction.Position == position)

/-- The method `SimpleBot.ChooseAction`.  The number `r` is the draw of the
random source, of which `rand.Intn(n)` returns `r % n`. -/
def SimpleBot.ChooseAction (state : ClientGameState) (r : Nat) : Option (Option MoveAction) :=
  if state.IsGameEnded then some none
  else
    let actions := SimpleBot.decodeActions state.PossibleActions
    if actions.length = 0 then some none
    else
      let mySymbol := state.YourSymbol
      let theirSymbol := state.TheirSymbol
      match SimpleBot.winningLoop state.Board mySymbol actions with
      | none => none
      | some (some moveAction) => some (some moveAction)
      | some none =>
        match SimpleBot.winningLoop state.Board theirSymbol actions with
        | none => none
        | some (some moveAction) => some (some moveAction)
        | some none =>
          match SimpleBot.actionAt actions 4 with
          | some moveAction => some (some moveAction)
          | none =>
            match [0, 2, 6, 8].findSome? (fun corner => SimpleBot.actionAt actions corner) with
            | some moveAction => some (some moveAction)
            | none =>
              if h : 0 < actions.length then
                some (some (actions.get ⟨r % actions.length, Nat.mod_lt r h⟩))
              else some none

/-- The state after the moves X at 0, O at 4, X at 1: board
`[1,1,0,0,2,0,0,0,0]` with player 1 to move. -/
def blockState : GameState := runMoves New [⟨0, 0⟩, ⟨1, 4⟩, ⟨0, 1⟩]

/-- A snapshot of a game in progress whose only legal-action entry is a
placement at position 9, outside the board. -/
def strayPositionSnapshot : ClientGameState :=
  { Board := fun _ => 0
    CurrentPlayerID := 1
    IsGameEnded := false
    WinnerPlayerID := -1
    PossibleActions := ["\x7b\"playerID\":1,\"position\":9\x7d"]
    YouPlayerID := 1
    ThemPlayerID := 0
    YourSymbol := 2
    TheirSymbol := 1 }


/-! ## Playing a game out -/

/-- The text of a natural number as `json.Marshal` writes it: a single `0`, or
a digit 1..9 followed by digits. -/
def IsNatText (ds : List Char) : Prop :=
  ds = ['0'] ∨
    ∃ d tl, ds = d :: tl ∧ d.isDigit = true ∧ d ≠ '0' ∧ ∀ c ∈ tl, c.isDigit = true

/-- A character that can follow a number inside an object: not a digit and
none of `.`, `e`, `E`. -/
def endsNumber (c : Char) : Prop :=
  c.isDigit = false ∧ c ≠ '.' ∧ c ≠ 'e' ∧ c ≠ 'E'

/-- Placing the mark `m` on cell `q` would complete a line of three `m`. -/
def completesLine (b : Board) (m : Int) (q : Fin 9) : Prop :=
  ∃ p ∈ winPatterns, lineFilledWith (Function.update b q m) m p

instance (b : Board) (m : Int) (q : Fin 9) : Decidable (completesLine b m q) := by
  unfold completesLine; infer_instance

/-- The empty cells of a board, in ascending order. -/
def emptyCells (b : Board) : List (Fin 9) :=
  (List.finRange 9).filter (fun i => b i = 0)

/-- The position after X takes the centre: player 1 is to move, nobody
threatens a line, and the centre is taken. -/
def centreTakenState : GameState := runMoves New [⟨0, 4⟩]

/-! ## Legality and the error contract of `RunAction` -/

theorem cell_index_eq (pos : Int) (h : 0 ≤ pos ∧ pos ≤ 8) (j : Fin 9)
    (hj : ((j : Nat) : Int) = pos) : (⟨pos.toNat, by omega⟩ : Fin 9) = j := by
  apply Fin.ext
  simp only
  omega

theorem reachable_runMoves (as : List MoveAction) :
    ∀ g : GameState, Reachable g → Reachable (runMoves g as) := by
  induction as with
  | nil => intro g hg; exact hg
  | cons a rest ih =>
    intro g hg
    exact ih _ (Reachable.step g (some a) hg)

theorem isPossible_true_iff (a : MoveAction) (g : GameState) :
    a.IsPossible g = true ↔
      a.PlayerID = g.CurrentPlayerID ∧ 0 ≤ a.Position ∧ a.Position ≤ 8 ∧
        ∃ j : Fin 9, ((j : Nat) : Int) = a.Position ∧ g.Board j = 0 := by
  unfold MoveAction.IsPossible
  by_cases hp : a.PlayerID = g.CurrentPlayerID
  · by_cases hr : a.Position < 0 ∨ a.Position > 8
    · simp only [hp, ne_eq, not_true_eq_false, if_false, hr, dif_pos]
      constructor
      · intro h; exact absurd h (by simp)
      · rintro ⟨-, h0, h8, -⟩; omega
    · have hr2 : 0 ≤ a.Position ∧ a.Position ≤ 8 := by omega
      simp only [hp, ne_eq, not_true_eq_false, if_false, hr, dif_neg, not_false_eq_true,
        beq_iff_eq, true_and]
      constructor
      · intro h
        exact ⟨hr2.1, hr2.2, ⟨a.Position.toNat, by omega⟩, by simp only; omega, h⟩
      · rintro ⟨-, -, j, hj, hb⟩
        rw [cell_index_eq a.Position hr2 j hj]
        exact hb
  · simp only [ne_eq, hp, not_false_eq_true, if_true, false_and, iff_false]
    simp

/-- C1 (as amended): `MoveAction.IsPossible` returns true exactly when the
acting player is the current player, the position lies in 0..8 and the cell at
that position is empty; it does not look at `IsGameEnded`. -/
theorem isPossible_iff (a : MoveAction) (g : GameState) :
    a.IsPossible g = true ↔
      a.PlayerID = g.CurrentPlayerID ∧ 0 ≤ a.Position ∧ a.Position ≤ 8 ∧
        ∃ j : Fin 9, ((j : Nat) : Int) = a.Position ∧ g.Board j = 0 :=
  isPossible_true_iff a g

/-- C1 (counterexample): after the five moves of `TestWinCondition` the game is
ended, yet `MoveAction{0, 5}.IsPossible` is true, so `IsPossible` does not
agree with the four-condition legality predicate there. -/
theorem isPossible_ignores_game_end :
    Reachable (runMoves New winMoves) ∧
      (runMoves New winMoves).IsGameEnded = true ∧
      (⟨0, 5⟩ : MoveAction).IsPossible (runMoves New winMoves) = true ∧
      ¬ ((⟨0, 5⟩ : MoveAction).IsPossible (runMoves New winMoves) = true ↔
          specLegal ⟨0, 5⟩ (runMoves New winMoves)) :=
  ⟨reachable_runMoves _ _ Reachable.new, by decide, by decide, by decide⟩

theorem run_of_isPossible (a : MoveAction) (g : GameState) (h : a.IsPossible g = true) :
    (a.Run g).2 = none := by
  unfold MoveAction.Run
  rw [dif_pos h]

theorem runAction_outcome (g : GameState) (action : Option MoveAction) :
    ((g.RunAction action).2 = none ↔
        action = none ∨
          (g.IsGameEnded = false ∧ ∃ a, action = some a ∧ a.IsPossible g = true)) ∧
      (∀ a, action = some a → g.IsGameEnded = true →
        (g.RunAction action).2 = some "game is already ended") ∧
      (∀ a, action = some a → g.IsGameEnded = false → a.IsPossible g = false →
        (g.RunAction action).2 = some "action not possible") := by
  cases action with
  | none => simp [GameState.RunAction]
  | some a =>
    cases he : g.IsGameEnded with
    | true => simp [GameState.RunAction, he]
    | false =>
      cases hp : a.IsPossible g with
      | false => simp [GameState.RunAction, he, hp]
      | true =>
        have hok : (g.RunAction (some a)).2 = none := by
          have hr := run_of_isPossible a g hp
          simp only [GameState.RunAction, he, hp, Bool.false_eq_true, if_false, Bool.not_true]
          split
          · rename_i g1 err heq
            rw [heq] at hr
            exact absurd hr (by simp)
          · rfl
        refine ⟨⟨fun _ => Or.inr ⟨rfl, a, rfl, hp⟩, fun _ => hok⟩, ?_, ?_⟩
        · intro _ _ h; exact absurd h (by simp)
        · intro b hb _ h
          cases hb
          rw [hp] at h
          exact absurd h (by simp)

theorem runAction_unchanged (g : GameState) (action : Option MoveAction)
    (h : (g.RunAction action).2 ≠ none ∨ action = none) :
    (g.RunAction action).1 = g := by
  cases action with
  | none => rfl
  | some a =>
    have h1 : (g.RunAction (some a)).2 ≠ none := by
      rcases h with h | h
      · exact h
      · exact absurd h (by simp)
    cases he : g.IsGameEnded with
    | true => simp [GameState.RunAction, he]
    | false =>
      cases hp : a.IsPossible g with
      | false => simp [GameState.RunAction, he, hp]
      | true =>
        exfalso
        apply h1
        exact (runAction_outcome g (some a)).1.2 (Or.inr ⟨he, a, rfl, hp⟩)

/-- C2: `RunAction` succeeds iff the action is nil, or the game is not ended
and the action is possible; on a terminal state every non-nil action fails with
"game is already ended", and on a non-terminal state an action that is not
possible fails with "action not possible". -/
theorem runAction_error_contract (g : GameState) (action : Option MoveAction) :
    ((g.RunAction action).2 = none ↔
        action = none ∨
          (g.IsGameEnded = false ∧ ∃ a, action = some a ∧ a.IsPossible g = true)) ∧
      (∀ a, action = some a → g.IsGameEnded = true →
        (g.RunAction action).2 = some "game is already ended") ∧
      (∀ a, action = some a → g.IsGameEnded = false → a.IsPossible g = false →
        (g.RunAction action).2 = some "action not possible") :=
  runAction_outcome g action

/-- C2 (witness): on the ended state of `TestWinCondition` a move fails with
"game is already ended"; on `New()` the move `MoveAction{1, 0}` of the wrong
player fails with "action not possible", `MoveAction{0, 0}` succeeds, and so
does the nil action. -/
theorem runAction_error_contract_witness :
    ((runMoves New winMoves).RunAction (some ⟨0, 5⟩)).2 = some "game is already ended" ∧
      (New.RunAction (some ⟨1, 0⟩)).2 = some "action not possible" ∧
      (New.RunAction (some ⟨0, 0⟩)).2 = none ∧
      (New.RunAction none).2 = none :=
  ⟨(runAction_error_contract (runMoves New winMoves) (some ⟨0, 5⟩)).2.1 ⟨0, 5⟩ rfl (by decide),
    (runAction_error_contract New (some ⟨1, 0⟩)).2.2 ⟨1, 0⟩ rfl (by decide) (by decide),
    (runAction_error_contract New (some ⟨0, 0⟩)).1.mpr
      (Or.inr ⟨by decide, ⟨0, 0⟩, rfl, by decide⟩),
    (runAction_error_contract New none).1.mpr (Or.inl rfl)⟩

/-- C3: whenever `RunAction` returns an error, and whenever it is given a nil
action, the state after the call equals the state before it, field for field. -/
theorem runAction_failure_keeps_state (g : GameState) (action : Option MoveAction)
    (h : (g.RunAction action).2 ≠ none ∨ action = none) :
    (g.RunAction action).1 = g :=
  runAction_unchanged g action h

/-- C3 (witness): the illegal replay of `TestMoveAction`.  From `New()`,
`MoveAction{0, 0}` succeeds; then `MoveAction{1, 0}` fails with "action not
possible" and leaves the state as it was after the first move. -/
theorem runAction_failure_keeps_state_witness :
    (New.RunAction (some ⟨0, 0⟩)).2 = none ∧
      (afterFirstMove.RunAction (some ⟨1, 0⟩)).2 = some "action not possible" ∧
      (afterFirstMove.RunAction (some ⟨1, 0⟩)).1 = afterFirstMove :=
  ⟨by decide, by decide,
    runAction_failure_keeps_state afterFirstMove (some ⟨1, 0⟩) (Or.inl (by decide))⟩

/-! ## Terminal detection -/

theorem findPlayer_two_players (s : Int) (h : s = 1 ∨ s = 2) :
    findPlayer [(0, 1), (1, 2)] s = some (s - 1) := by
  rcases h with h | h <;> subst h <;> rfl

theorem mapGet_two_players (p : Int) (h : p = 0 ∨ p = 1) :
    mapGet [(0, 1), (1, 2)] p = p + 1 := by
  rcases h with h | h <;> subst h <;> rfl

theorem checkPatterns_no_win (ps : List (Fin 9 × Fin 9 × Fin 9)) (g : GameState)
    (h : ∀ p ∈ ps, ¬ lineWins g.Board p) : checkPatterns g ps = (g, false) := by
  induction ps with
  | nil => rfl
  | cons p rest ih =>
    have hp : ¬ lineWins g.Board p := h p (List.mem_cons_self _ _)
    simp only [checkPatterns, hp, if_false]
    exact ih (fun q hq => h q (List.mem_cons_of_mem _ hq))

theorem checkPatterns_win (ps : List (Fin 9 × Fin 9 × Fin 9)) (g : GameState)
    (hsym : g.PlayerSymbols = [(0, 1), (1, 2)])
    (hcells : ∀ i, g.Board i = 0 ∨ g.Board i = 1 ∨ g.Board i = 2)
    (h : ∃ p ∈ ps, lineWins g.Board p) :
    ∃ p ∈ ps, lineWins g.Board p ∧
      checkPatterns g ps =
        ({ g with IsGameEnded := true, WinnerPlayerID := g.Board p.1 - 1 }, true) := by
  induction ps with
  | nil =>
    obtain ⟨p, hp, -⟩ := h
    exact absurd hp (List.not_mem_nil _)
  | cons p rest ih =>
    by_cases hp : lineWins g.Board p
    · refine ⟨p, List.mem_cons_self _ _, hp, ?_⟩
      have hmark : g.Board p.1 = 1 ∨ g.Board p.1 = 2 := by
        rcases hcells p.1 with h0 | h12
        · exact absurd h0 hp.1
        · exact h12
      simp only [checkPatterns, hp, if_true, hsym, findPlayer_two_players _ hmark]
    · obtain ⟨q, hq, hqw⟩ := h
      have hq2 : q ∈ rest := by
        rcases List.mem_cons.mp hq with h1 | h1
        · subst h1; exact absurd hqw hp
        · exact h1
      obtain ⟨r, hr, hrw, heq⟩ := ih ⟨q, hq2, hqw⟩
      refine ⟨r, List.mem_cons_of_mem _ hr, hrw, ?_⟩
      simp only [checkPatterns, hp, if_false]
      exact heq

theorem boardFull_iff (b : Board) : boardFull b = true ↔ noEmptyCell b := by
  unfold boardFull noEmptyCell
  simp [List.all_eq_true, List.mem_finRange]

theorem lineWins_update (b : Board) (j : Fin 9) (s : Int) (p : Fin 9 × Fin 9 × Fin 9)
    (hold : ¬ lineWins b p) (hnew : lineWins (Function.update b j s) p) :
    Function.update b j s p.1 = s := by
  obtain ⟨h0, h1, h2⟩ := hnew
  by_cases e1 : p.1 = j
  · rw [e1]; exact Function.update_same _ _ _
  · by_cases e2 : p.2.1 = j
    · rw [h1, e2]; exact Function.update_same _ _ _
    · by_cases e3 : p.2.2 = j
      · rw [h1, h2, e3]; exact Function.update_same _ _ _
      · exfalso
        apply hold
        rw [Function.update_noteq e1] at h0 h1
        rw [Function.update_noteq e2] at h1 h2
        rw [Function.update_noteq e3] at h2
        exact ⟨h0, h1, h2⟩

theorem countMark_update_same (b : Board) (j : Fin 9) (s : Int) (hj : b j ≠ s) :
    countMark (Function.update b j s) s = countMark b s + 1 := by
  unfold countMark
  have hset : Finset.univ.filter (fun i : Fin 9 => Function.update b j s i = s) =
      insert j (Finset.univ.filter (fun i : Fin 9 => b i = s)) := by
    ext i
    simp only [Finset.mem_filter, Finset.mem_univ, true_and, Finset.mem_insert]
    by_cases e : i = j
    · subst e; simp
    · simp [Function.update_noteq e, e]
  rw [hset, Finset.card_insert_of_not_mem]
  simp [hj]

theorem countMark_update_other (b : Board) (j : Fin 9) (s m : Int) (hj : b j ≠ m)
    (hs : s ≠ m) : countMark (Function.update b j s) m = countMark b m := by
  unfold countMark
  congr 1
  ext i
  simp only [Finset.mem_filter, Finset.mem_univ, true_and]
  by_cases e : i = j
  · subst e; simp [hj, hs]
  · simp [Function.update_noteq e]

/-! ## One successful move -/

theorem run_eq (a : MoveAction) (g : GameState) (j : Fin 9)
    (hp : a.IsPossible g = true) (hj : ((j : Nat) : Int) = a.Position) :
    a.Run g =
      (({ g with Board := Function.update g.Board j (mapGet g.PlayerSymbols a.PlayerID) } :
        GameState).checkGameEnd, none) := by
  have hr := (isPossible_true_iff a g).mp hp
  unfold MoveAction.Run
  rw [dif_pos hp]
  simp only [cell_index_eq a.Position ⟨hr.2.1, hr.2.2.1⟩ j hj]

theorem checkGameEnd_cases (g : GameState)
    (hsym : g.PlayerSymbols = [(0, 1), (1, 2)])
    (hcells : ∀ i, g.Board i = 0 ∨ g.Board i = 1 ∨ g.Board i = 2) :
    (hasWinningLine g.Board →
      ∃ p ∈ winPatterns, lineWins g.Board p ∧
        g.checkGameEnd = { g with IsGameEnded := true, WinnerPlayerID := g.Board p.1 - 1 }) ∧
    (¬ hasWinningLine g.Board → noEmptyCell g.Board →
      g.checkGameEnd = { g with IsGameEnded := true, WinnerPlayerID := -1 }) ∧
    (¬ hasWinningLine g.Board → ¬ noEmptyCell g.Board → g.checkGameEnd = g) := by
  refine ⟨?_, ?_, ?_⟩
  · intro hw
    obtain ⟨p, hp, hpw, heq⟩ := checkPatterns_win winPatterns g hsym hcells hw
    refine ⟨p, hp, hpw, ?_⟩
    unfold GameState.checkGameEnd
    rw [heq]
  · intro hw hf
    have heq := checkPatterns_no_win winPatterns g (fun p hp hpw => hw ⟨p, hp, hpw⟩)
    unfold GameState.checkGameEnd
    rw [heq]
    simp only [(boardFull_iff g.Board).mpr hf, if_true]
  · intro hw hf
    have heq := checkPatterns_no_win winPatterns g (fun p hp hpw => hw ⟨p, hp, hpw⟩)
    have hb : boardFull g.Board = false := by
      cases h : boardFull g.Board with
      | false => rfl
      | true => exact absurd ((boardFull_iff g.Board).mp h) hf
    unfold GameState.checkGameEnd
    rw [heq]
    simp only [hb, Bool.false_eq_true, if_false]

theorem runAction_move (g : GameState) (a : MoveAction)
    (hsym : g.PlayerSymbols = [(0, 1), (1, 2)])
    (hcells : ∀ i, g.Board i = 0 ∨ g.Board i = 1 ∨ g.Board i = 2)
    (hcur : g.CurrentPlayerID = 0 ∨ g.CurrentPlayerID = 1)
    (hnowin : ¬ hasWinningLine g.Board)
    (he : g.IsGameEnded = false) (hp : a.IsPossible g = true) :
    ∃ j : Fin 9, ((j : Nat) : Int) = a.Position ∧ g.Board j = 0 ∧
      (g.RunAction (some a)).2 = none ∧
      (g.RunAction (some a)).1.Board = Function.update g.Board j (g.CurrentPlayerID + 1) ∧
      (g.RunAction (some a)).1.PlayerSymbols = g.PlayerSymbols ∧
      (g.RunAction (some a)).1.PossibleActions =
        serializeActions (g.RunAction (some a)).1.CalculatePossibleActions ∧
      (hasWinningLine (Function.update g.Board j (g.CurrentPlayerID + 1)) →
        (g.RunAction (some a)).1.IsGameEnded = true ∧
        (g.RunAction (some a)).1.WinnerPlayerID = g.CurrentPlayerID ∧
        (g.RunAction (some a)).1.CurrentPlayerID = g.CurrentPlayerID) ∧
      (¬ hasWinningLine (Function.update g.Board j (g.CurrentPlayerID + 1)) →
        noEmptyCell (Function.update g.Board j (g.CurrentPlayerID + 1)) →
        (g.RunAction (some a)).1.IsGameEnded = true ∧
        (g.RunAction (some a)).1.WinnerPlayerID = -1 ∧
        (g.RunAction (some a)).1.CurrentPlayerID = g.CurrentPlayerID) ∧
      (¬ hasWinningLine (Function.update g.Board j (g.CurrentPlayerID + 1)) →
        ¬ noEmptyCell (Function.update g.Board j (g.CurrentPlayerID + 1)) →
        (g.RunAction (some a)).1.IsGameEnded = false ∧
        (g.RunAction (some a)).1.WinnerPlayerID = g.WinnerPlayerID ∧
        (g.RunAction (some a)).1.CurrentPlayerID = 1 - g.CurrentPlayerID) := by
  obtain ⟨hpl, h0, h8, j, hj, hbj⟩ := (isPossible_true_iff a g).mp hp
  have hs : mapGet g.PlayerSymbols a.PlayerID = g.CurrentPlayerID + 1 := by
    rw [hsym, hpl]; exact mapGet_two_players _ hcur
  have hrun := run_eq a g j hp hj
  rw [hs] at hrun
  have hsne : g.CurrentPlayerID + 1 = 1 ∨ g.CurrentPlayerID + 1 = 2 := by omega
  have hcells1 : ∀ i, Function.update g.Board j (g.CurrentPlayerID + 1) i = 0 ∨
      Function.update g.Board j (g.CurrentPlayerID + 1) i = 1 ∨
      Function.update g.Board j (g.CurrentPlayerID + 1) i = 2 := by
    intro i
    by_cases e : i = j
    · subst e; rw [Function.update_same]; omega
    · rw [Function.update_noteq e]; exact hcells i
  obtain ⟨hwin, hdraw, hgo⟩ := checkGameEnd_cases
    ({ g with Board := Function.update g.Board j (g.CurrentPlayerID + 1) } : GameState)
    hsym hcells1
  refine ⟨j, hj, hbj, ?_⟩
  by_cases hw : hasWinningLine (Function.update g.Board j (g.CurrentPlayerID + 1))
  · obtain ⟨p, hpm, hpw, heq⟩ := hwin hw
    have hmark := lineWins_update g.Board j (g.CurrentPlayerID + 1) p
      (fun h => hnowin ⟨p, hpm, h⟩) hpw
    simp only [hmark] at heq
    rw [heq] at hrun
    simp [GameState.RunAction, he, hp, hrun, hw, GameState.CalculatePossibleActions]
  · by_cases hf : noEmptyCell (Function.update g.Board j (g.CurrentPlayerID + 1))
    · have heq := hdraw hw hf
      rw [heq] at hrun
      simp [GameState.RunAction, he, hp, hrun, hw, hf, GameState.CalculatePossibleActions]
    · have heq := hgo hw hf
      rw [heq] at hrun
      simp [GameState.RunAction, he, hp, hrun, hw, hf, GameState.CalculatePossibleActions]

/-! ## The invariant -/

theorem inv_new : Inv New := by
  refine ⟨rfl, fun _ => Or.inl rfl, rfl, ?_, ?_⟩
  · intro _
    refine ⟨rfl, by decide, by decide, Or.inl ⟨rfl, by decide⟩⟩
  · intro h
    exact absurd h (by decide)

theorem inv_move (g : GameState) (a : MoveAction) (hg : Inv g)
    (he : g.IsGameEnded = false) (hp : a.IsPossible g = true) :
    Inv (g.RunAction (some a)).1 := by
  obtain ⟨hwinner, hnowin, -, hturn⟩ := hg.active he
  have hcur : g.CurrentPlayerID = 0 ∨ g.CurrentPlayerID = 1 := by
    rcases hturn with h | h
    · exact Or.inl h.1
    · exact Or.inr h.1
  obtain ⟨j, -, hbj, -, hboard, hsym, hcache, hwin, hdraw, hgo⟩ :=
    runAction_move g a hg.symbols hg.cells hcur hnowin he hp
  have hcells : ∀ i, (g.RunAction (some a)).1.Board i = 0 ∨
      (g.RunAction (some a)).1.Board i = 1 ∨ (g.RunAction (some a)).1.Board i = 2 := by
    intro i
    rw [hboard]
    by_cases e : i = j
    · subst e; rw [Function.update_same]; omega
    · rw [Function.update_noteq e]; exact hg.cells i
  -- the mark counts after the move
  have hcount : (g.CurrentPlayerID = 0 ∧
        countMark (g.RunAction (some a)).1.Board 1 =
          countMark (g.RunAction (some a)).1.Board 2 + 1) ∨
      (g.CurrentPlayerID = 1 ∧
        countMark (g.RunAction (some a)).1.Board 1 =
          countMark (g.RunAction (some a)).1.Board 2) := by
    rw [hboard]
    rcases hturn with ⟨h0, hc⟩ | ⟨h1, hc⟩
    · left
      refine ⟨h0, ?_⟩
      rw [h0]
      have e1 := countMark_update_same g.Board j 1 (by rw [hbj]; decide)
      have e2 := countMark_update_other g.Board j 1 2 (by rw [hbj]; decide) (by decide)
      simp only [zero_add]
      omega
    · right
      refine ⟨h1, ?_⟩
      rw [h1]
      have e1 := countMark_update_same g.Board j 2 (by rw [hbj]; decide)
      have e2 := countMark_update_other g.Board j 2 1 (by rw [hbj]; decide) (by decide)
      have e3 : (1 : Int) + 1 = 2 := rfl
      simp only [e3]
      omega
  by_cases hw : hasWinningLine (Function.update g.Board j (g.CurrentPlayerID + 1))
  · obtain ⟨hended, hwn, hc⟩ := hwin hw
    refine ⟨hsym.trans hg.symbols, hcells, hcache, ?_, ?_⟩
    · intro h; rw [hended] at h; exact absurd h (by decide)
    · intro _
      rw [hc]
      refine ⟨hcount, Or.inr ⟨hwn, ?_, ?_⟩⟩
      · obtain ⟨p, hpm, hpw⟩ := hw
        have hm := lineWins_update g.Board j (g.CurrentPlayerID + 1) p
          (fun h => hnowin ⟨p, hpm, h⟩) hpw
        rw [hboard]
        obtain ⟨-, e1, e2⟩ := hpw
        exact ⟨p, hpm, hm, e1 ▸ hm, e2 ▸ e1 ▸ hm⟩
      · intro p hpm hpw
        rw [hboard] at hpw ⊢
        exact lineWins_update g.Board j (g.CurrentPlayerID + 1) p
          (fun h => hnowin ⟨p, hpm, h⟩) hpw
  · by_cases hf : noEmptyCell (Function.update g.Board j (g.CurrentPlayerID + 1))
    · obtain ⟨hended, hwn, hc⟩ := hdraw hw hf
      refine ⟨hsym.trans hg.symbols, hcells, hcache, ?_, ?_⟩
      · intro h; rw [hended] at h; exact absurd h (by decide)
      · intro _
        rw [hc]
        refine ⟨hcount, Or.inl ⟨hwn, ?_, ?_⟩⟩
        · rw [hboard]; exact hw
        · rw [hboard]; exact hf
    · obtain ⟨hended, hwn, hc⟩ := hgo hw hf
      refine ⟨hsym.trans hg.symbols, hcells, hcache, ?_, ?_⟩
      · intro _
        refine ⟨hwn.trans hwinner, by rw [hboard]; exact hw, by rw [hboard]; exact hf, ?_⟩
        rw [hc]
        rcases hcount with ⟨h0, hx⟩ | ⟨h1, hx⟩
        · right; exact ⟨by rw [h0]; rfl, hx⟩
        · left; exact ⟨by rw [h1]; rfl, hx⟩
      · intro h; rw [hended] at h; exact absurd h (by decide)

theorem inv_step (g : GameState) (action : Option MoveAction) (hg : Inv g) :
    Inv (g.RunAction action).1 := by
  by_cases hfail : (g.RunAction action).2 ≠ none ∨ action = none
  · rw [runAction_unchanged g action hfail]
    exact hg
  · have hok : (g.RunAction action).2 = none := by
      by_contra h
      exact hfail (Or.inl h)
    rcases (runAction_outcome g action).1.mp hok with h | ⟨he, a, ha, hp⟩
    · exact absurd (Or.inr h) hfail
    · subst ha
      exact inv_move g a hg he hp

theorem inv_of_reachable (g : GameState) (h : Reachable g) : Inv g := by
  induction h with
  | new => exact inv_new
  | step g action _ ih => exact inv_step g action ih

/-! ## The effect of a successful move -/

theorem move_effect (g : GameState) (a : MoveAction) (hg : Reachable g)
    (hok : (g.RunAction (some a)).2 = none) :
    (a.PlayerID = 0 ∨ a.PlayerID = 1) ∧
      ∃ j : Fin 9, ((j : Nat) : Int) = a.Position ∧
        (g.RunAction (some a)).1.Board j = (if a.PlayerID = 0 then 1 else 2) ∧
        (g.RunAction (some a)).1.Board j = mapGet g.PlayerSymbols a.PlayerID ∧
        (∀ k : Fin 9, k ≠ j → (g.RunAction (some a)).1.Board k = g.Board k) ∧
        ((g.RunAction (some a)).1.IsGameEnded = false →
          (g.RunAction (some a)).1.CurrentPlayerID = 1 - a.PlayerID) ∧
        ((g.RunAction (some a)).1.IsGameEnded = true →
          (g.RunAction (some a)).1.CurrentPlayerID = a.PlayerID) ∧
        (g.RunAction (some a)).1.PossibleActions =
          serializeActions (g.RunAction (some a)).1.CalculatePossibleActions := by
  have hinv := inv_of_reachable g hg
  rcases (runAction_outcome g (some a)).1.mp hok with h | ⟨he, b, hb, hp⟩
  · exact absurd h (by simp)
  cases hb
  obtain ⟨-, hnowin, -, hturn⟩ := hinv.active he
  have hcur : g.CurrentPlayerID = 0 ∨ g.CurrentPlayerID = 1 := by
    rcases hturn with h | h
    · exact Or.inl h.1
    · exact Or.inr h.1
  have hpl : a.PlayerID = g.CurrentPlayerID := ((isPossible_true_iff a g).mp hp).1
  obtain ⟨j, hj, -, -, hboard, -, hcache, hwin, hdraw, hgo⟩ :=
    runAction_move g a hinv.symbols hinv.cells hcur hnowin he hp
  refine ⟨hpl ▸ hcur, j, hj, ?_, ?_, ?_, ?_, ?_, hcache⟩
  · rw [hboard, Function.update_same, hpl]
    rcases hcur with h | h <;> rw [h] <;> rfl
  · rw [hboard, Function.update_same, hinv.symbols, hpl, mapGet_two_players _ hcur]
  · intro k hk
    rw [hboard, Function.update_noteq hk]
  · intro hne
    rw [hpl]
    by_cases hw : hasWinningLine (Function.update g.Board j (g.CurrentPlayerID + 1))
    · rw [(hwin hw).1] at hne; exact absurd hne (by decide)
    · by_cases hf : noEmptyCell (Function.update g.Board j (g.CurrentPlayerID + 1))
      · rw [(hdraw hw hf).1] at hne; exact absurd hne (by decide)
      · exact (hgo hw hf).2.2
  · intro hend
    rw [hpl]
    by_cases hw : hasWinningLine (Function.update g.Board j (g.CurrentPlayerID + 1))
    · exact (hwin hw).2.2
    · by_cases hf : noEmptyCell (Function.update g.Board j (g.CurrentPlayerID + 1))
      · exact (hdraw hw hf).2.2
      · rw [(hgo hw hf).1] at hend; exact absurd hend (by decide)

/-- C4: for a reachable state and a move on which `RunAction` succeeds, the
cell at the position of the move afterwards holds the mark of the mover (1 for player 0,
2 for player 1), every other cell is unchanged, the current player is the other
player if the new state is not terminal and still the mover if it is, and the
cached actions are the serialization of `CalculatePossibleActions` of the new
state. -/
theorem runAction_move_effect (g : GameState) (a : MoveAction) (hg : Reachable g)
    (hok : (g.RunAction (some a)).2 = none) :
    (a.PlayerID = 0 ∨ a.PlayerID = 1) ∧
      ∃ j : Fin 9, ((j : Nat) : Int) = a.Position ∧
        (g.RunAction (some a)).1.Board j = (if a.PlayerID = 0 then 1 else 2) ∧
        (g.RunAction (some a)).1.Board j = mapGet g.PlayerSymbols a.PlayerID ∧
        (∀ k : Fin 9, k ≠ j → (g.RunAction (some a)).1.Board k = g.Board k) ∧
        ((g.RunAction (some a)).1.IsGameEnded = false →
          (g.RunAction (some a)).1.CurrentPlayerID = 1 - a.PlayerID) ∧
        ((g.RunAction (some a)).1.IsGameEnded = true →
          (g.RunAction (some a)).1.CurrentPlayerID = a.PlayerID) ∧
        (g.RunAction (some a)).1.PossibleActions =
          serializeActions (g.RunAction (some a)).1.CalculatePossibleActions :=
  move_effect g a hg hok

/-- C4 (witness): the first move of `TestMoveAction`.  From `New()`,
`MoveAction{0, 0}` succeeds and gives `Board[0] = 1`, `CurrentPlayerID = 1`. -/
theorem runAction_move_effect_witness :
    (New.RunAction (some ⟨0, 0⟩)).2 = none ∧
      (New.RunAction (some ⟨0, 0⟩)).1.Board 0 = 1 ∧
      (New.RunAction (some ⟨0, 0⟩)).1.CurrentPlayerID = 1 ∧
      ∃ j : Fin 9, ((j : Nat) : Int) = 0 ∧
        (New.RunAction (some ⟨0, 0⟩)).1.Board j = 1 ∧
        (∀ k : Fin 9, k ≠ j → (New.RunAction (some ⟨0, 0⟩)).1.Board k = New.Board k) ∧
        (New.RunAction (some ⟨0, 0⟩)).1.PossibleActions =
          serializeActions (New.RunAction (some ⟨0, 0⟩)).1.CalculatePossibleActions := by
  refine ⟨by decide, by decide, by decide, ?_⟩
  obtain ⟨-, j, hj, h1, -, h3, -, -, h6⟩ :=
    runAction_move_effect New ⟨0, 0⟩ Reachable.new (by decide)
  exact ⟨j, hj, h1, h3, h6⟩

/-! ## Invariants of the reachable states -/

/-- C5: in every reachable state, `IsGameEnded` is true iff the board has one
of the eight lines filled with three equal non-empty marks or has no empty
cell. -/
theorem isGameEnded_iff (g : GameState) (hg : Reachable g) :
    g.IsGameEnded = true ↔ hasWinningLine g.Board ∨ noEmptyCell g.Board := by
  have hinv := inv_of_reachable g hg
  constructor
  · intro he
    obtain ⟨hcur, hres⟩ := hinv.ended he
    rcases hres with ⟨-, -, hfull⟩ | ⟨-, ⟨p, hpm, h1, h2, h3⟩, -⟩
    · exact Or.inr hfull
    · left
      refine ⟨p, hpm, ?_, by rw [h1, h2], by rw [h2, h3]⟩
      rw [h1]
      rcases hcur with h | h <;> rw [h.1] <;> decide
  · intro h
    cases he : g.IsGameEnded with
    | true => rfl
    | false =>
      obtain ⟨-, hnw, hnf, -⟩ := hinv.active he
      rcases h with h | h
      · exact absurd h hnw
      · exact absurd h hnf

/-- C5 (witness): after the moves of `TestWinCondition` the game is ended and
the board has a winning line; in `New()` it is not ended and has neither. -/
theorem isGameEnded_iff_witness :
    ((runMoves New winMoves).IsGameEnded = true ↔
        hasWinningLine (runMoves New winMoves).Board ∨
          noEmptyCell (runMoves New winMoves).Board) ∧
      (runMoves New winMoves).IsGameEnded = true ∧
      hasWinningLine (runMoves New winMoves).Board :=
  ⟨isGameEnded_iff _ (reachable_runMoves winMoves New Reachable.new), by decide, by decide⟩

/-- C6: in every reachable ended state with a winner `w ≥ 0`, `w` is 0 or 1,
the mark of player `w` is X or O and fills some winning line, every winning
line carries that mark, and the mark of the other player fills no winning line; in
every reachable ended state with winner `-1` there is no winning line and no
cell is empty. -/
theorem winner_matches_board (g : GameState) (hg : Reachable g)
    (he : g.IsGameEnded = true) :
    (0 ≤ g.WinnerPlayerID →
        (g.WinnerPlayerID = 0 ∨ g.WinnerPlayerID = 1) ∧
        (mapGet g.PlayerSymbols g.WinnerPlayerID = 1 ∨
          mapGet g.PlayerSymbols g.WinnerPlayerID = 2) ∧
        (∃ p ∈ winPatterns,
          lineFilledWith g.Board (mapGet g.PlayerSymbols g.WinnerPlayerID) p) ∧
        (∀ p ∈ winPatterns, lineWins g.Board p →
          g.Board p.1 = mapGet g.PlayerSymbols g.WinnerPlayerID) ∧
        (∀ p ∈ winPatterns,
          ¬ lineFilledWith g.Board (mapGet g.PlayerSymbols (1 - g.WinnerPlayerID)) p)) ∧
      (g.WinnerPlayerID = -1 → ¬ hasWinningLine g.Board ∧ noEmptyCell g.Board) := by
  have hinv := inv_of_reachable g hg
  obtain ⟨hcur, hres⟩ := hinv.ended he
  have hc : g.CurrentPlayerID = 0 ∨ g.CurrentPlayerID = 1 := by
    rcases hcur with h | h
    · exact Or.inl h.1
    · exact Or.inr h.1
  rcases hres with ⟨hw, hnw, hfull⟩ | ⟨hw, hline, hall⟩
  · refine ⟨fun h => ?_, fun _ => ⟨hnw, hfull⟩⟩
    rw [hw] at h
    exact absurd h (by decide)
  · refine ⟨fun _ => ?_, fun h => ?_⟩
    · rw [hw, hinv.symbols, mapGet_two_players _ hc]
      refine ⟨hc, by omega, hline, hall, ?_⟩
      rintro p hpm ⟨h1, h2, h3⟩
      have hother : mapGet [(0, 1), (1, 2)] (1 - g.CurrentPlayerID) =
          2 - g.CurrentPlayerID := by
        rcases hc with h | h <;> rw [h] <;> rfl
      rw [hother] at h1 h2 h3
      have hlw : lineWins g.Board p := by
        refine ⟨?_, by rw [h1, h2], by rw [h2, h3]⟩
        rw [h1]; omega
      have := hall p hpm hlw
      omega
    · rw [hw] at h
      omega

/-- C6 (witness): the move sequences of `TestWinCondition` (winner 0, whose
mark 1 fills a line while mark 2 fills none) and `TestDrawCondition` (winner
-1, full board without a winning line), and a game whose ninth move completes
a line (winner 0, not -1). -/
theorem winner_matches_board_witness :
    ((runMoves New winMoves).WinnerPlayerID = 0 ∧
        (∃ p ∈ winPatterns, lineFilledWith (runMoves New winMoves).Board 1 p) ∧
        (∀ p ∈ winPatterns, ¬ lineFilledWith (runMoves New winMoves).Board 2 p)) ∧
      ((runMoves New drawMoves).WinnerPlayerID = -1 ∧
        ¬ hasWinningLine (runMoves New drawMoves).Board ∧
        noEmptyCell (runMoves New drawMoves).Board) ∧
      ((runMoves New lastCellWinMoves).WinnerPlayerID = 0 ∧
        noEmptyCell (runMoves New lastCellWinMoves).Board ∧
        ∃ p ∈ winPatterns, lineFilledWith (runMoves New lastCellWinMoves).Board 1 p) := by
  have hwin := (winner_matches_board (runMoves New winMoves)
    (reachable_runMoves winMoves New Reachable.new) (by decide)).1 (by decide)
  have hdraw := (winner_matches_board (runMoves New drawMoves)
    (reachable_runMoves drawMoves New Reachable.new) (by decide)).2 (by decide)
  have hlast := (winner_matches_board (runMoves New lastCellWinMoves)
    (reachable_runMoves lastCellWinMoves New Reachable.new) (by decide)).1 (by decide)
  exact ⟨⟨by decide, hwin.2.2.1, hwin.2.2.2.2⟩, ⟨by decide, hdraw⟩,
    ⟨by decide, by decide, hlast.2.2.1⟩⟩

/-- C7: in every reachable state every cell is 0, 1 or 2, and the number of X
marks equals the number of O marks or exceeds it by exactly one. -/
theorem mark_counts (g : GameState) (hg : Reachable g) :
    (∀ i : Fin 9, g.Board i = 0 ∨ g.Board i = 1 ∨ g.Board i = 2) ∧
      (countMark g.Board 1 = countMark g.Board 2 ∨
        countMark g.Board 1 = countMark g.Board 2 + 1) := by
  have hinv := inv_of_reachable g hg
  refine ⟨hinv.cells, ?_⟩
  cases he : g.IsGameEnded with
  | false =>
    obtain ⟨-, -, -, h⟩ := hinv.active he
    rcases h with h | h
    · exact Or.inl h.2
    · exact Or.inr h.2
  | true =>
    rcases (hinv.ended he).1 with h | h
    · exact Or.inr h.2
    · exact Or.inl h.2

/-- C7 (witness): after the moves of `TestWinCondition` there are three X
marks and two O marks. -/
theorem mark_counts_witness :
    countMark (runMoves New winMoves).Board 1 = 3 ∧
      countMark (runMoves New winMoves).Board 2 = 2 ∧
      (countMark (runMoves New winMoves).Board 1 = countMark (runMoves New winMoves).Board 2 ∨
        countMark (runMoves New winMoves).Board 1 =
          countMark (runMoves New winMoves).Board 2 + 1) :=
  ⟨by decide, by decide,
    (mark_counts _ (reachable_runMoves winMoves New Reachable.new)).2⟩

/-- C8 (as amended): in every reachable state in which the game is not ended,
`CurrentPlayerID` is 0 whenever the number of X marks equals the number of O
marks, and 1 whenever the number of X marks is the number of O marks plus
one. -/
theorem currentPlayer_of_counts (g : GameState) (hg : Reachable g)
    (he : g.IsGameEnded = false) :
    (countMark g.Board 1 = countMark g.Board 2 → g.CurrentPlayerID = 0) ∧
      (countMark g.Board 1 = countMark g.Board 2 + 1 → g.CurrentPlayerID = 1) := by
  obtain ⟨-, -, -, h⟩ := (inv_of_reachable g hg).active he
  rcases h with ⟨hc, hx⟩ | ⟨hc, hx⟩
  · exact ⟨fun _ => hc, fun h => by omega⟩
  · exact ⟨fun h => by omega, fun _ => hc⟩

/-- C8 (witness): after the first move of `TestMoveAction` the game goes on,
X has one mark more than O, and the current player is 1. -/
theorem currentPlayer_of_counts_witness :
    afterFirstMove.IsGameEnded = false ∧
      countMark afterFirstMove.Board 1 = countMark afterFirstMove.Board 2 + 1 ∧
      afterFirstMove.CurrentPlayerID = 1 :=
  ⟨by decide, by decide,
    (currentPlayer_of_counts afterFirstMove (Reachable.step New (some ⟨0, 0⟩) Reachable.new)
      (by decide)).2 (by decide)⟩

/-- C8 (counterexample): after the moves of `TestWinCondition` the game is
ended with three X marks and two O marks, and `CurrentPlayerID` is 0, frozen at
the player who made the winning move, not 1. -/
theorem currentPlayer_frozen_at_game_end :
    Reachable (runMoves New winMoves) ∧
      (runMoves New winMoves).IsGameEnded = true ∧
      countMark (runMoves New winMoves).Board 1 =
        countMark (runMoves New winMoves).Board 2 + 1 ∧
      (runMoves New winMoves).CurrentPlayerID = 0 ∧
      ¬ (countMark (runMoves New winMoves).Board 1 =
          countMark (runMoves New winMoves).Board 2 + 1 →
        (runMoves New winMoves).CurrentPlayerID = 1) :=
  ⟨reachable_runMoves _ _ Reachable.new, by decide, by decide, by decide, by decide⟩

/-! ## The cached legal actions -/

theorem serializeActions_map (l : List MoveAction) :
    (serializeActions l).map (fun raw => (Except.ok raw : Except String RawMessage)) =
      l.map jsonMarshal := by
  induction l with
  | nil => rfl
  | cons a rest ih =>
    have hcons : serializeActions (a :: rest) =
        ("\x7b\"playerID\":" ++ toString a.PlayerID ++ ",\"position\":" ++
          toString a.Position ++ "\x7d") :: serializeActions rest := rfl
    rw [hcons, List.map_cons, List.map_cons, ih]
    rfl

theorem serializeActions_length (l : List MoveAction) :
    (serializeActions l).length = l.length := by
  have h := congrArg List.length (serializeActions_map l)
  simpa using h

theorem filterMap_if (l : List (Fin 9)) (b : Board) (f : Fin 9 → MoveAction) :
    l.filterMap (fun i => if b i = 0 then some (f i) else none) =
      (l.filter (fun i => b i = 0)).map f := by
  induction l with
  | nil => rfl
  | cons i rest ih =>
    by_cases h : b i = 0
    · simp [List.filterMap_cons, List.filter_cons, h, ih]
    · simp [List.filterMap_cons, List.filter_cons, h, ih]

theorem calculatePossibleActions_active (g : GameState) (he : g.IsGameEnded = false) :
    g.CalculatePossibleActions =
      ((List.finRange 9).filter (fun i => g.Board i = 0)).map
        (fun i : Fin 9 => ({ PlayerID := g.CurrentPlayerID, Position := ((i : Nat) : Int) } :
          MoveAction)) := by
  unfold GameState.CalculatePossibleActions
  rw [he]
  simp only [Bool.false_eq_true, if_false]
  exact filterMap_if _ _ _

theorem length_filter_empty (b : Board) :
    ((List.finRange 9).filter (fun i => b i = 0)).length = countMark b 0 := by
  unfold countMark
  rfl

/-- C9: in every reachable state the cached `PossibleActions` list is empty iff
the game is ended; when the game is not ended it is, in ascending cell order,
the serialized `MoveAction{CurrentPlayerID, cell}` of each empty cell, so its
length is the number of empty cells. -/
theorem possibleActions_cache (g : GameState) (hg : Reachable g) :
    (g.PossibleActions = [] ↔ g.IsGameEnded = true) ∧
      (g.IsGameEnded = false →
        g.PossibleActions.map (fun raw => (Except.ok raw : Except String RawMessage)) =
            ((List.finRange 9).filter (fun i => g.Board i = 0)).map
              (fun i : Fin 9 => jsonMarshal ⟨g.CurrentPlayerID, ((i : Nat) : Int)⟩) ∧
          g.PossibleActions.length = countMark g.Board 0) := by
  have hinv := inv_of_reachable g hg
  have hactive : g.IsGameEnded = false →
      g.PossibleActions.map (fun raw => (Except.ok raw : Except String RawMessage)) =
          ((List.finRange 9).filter (fun i => g.Board i = 0)).map
            (fun i : Fin 9 => jsonMarshal ⟨g.CurrentPlayerID, ((i : Nat) : Int)⟩) ∧
        g.PossibleActions.length = countMark g.Board 0 := by
    intro he
    constructor
    · rw [hinv.cache, serializeActions_map, calculatePossibleActions_active g he,
        List.map_map]
      rfl
    · rw [hinv.cache, serializeActions_length, calculatePossibleActions_active g he,
        List.length_map, length_filter_empty]
  refine ⟨⟨fun hnil => ?_, fun he => ?_⟩, hactive⟩
  · cases he : g.IsGameEnded with
    | true => rfl
    | false =>
      exfalso
      obtain ⟨-, -, hnf, -⟩ := hinv.active he
      have hlen := (hactive he).2
      rw [hnil, List.length_nil] at hlen
      apply hnf
      intro i hi
      have hmem : i ∈ Finset.univ.filter (fun k : Fin 9 => g.Board k = 0) := by
        simp [hi]
      have hpos : 0 < countMark g.Board 0 := Finset.card_pos.mpr ⟨i, hmem⟩
      omega
  · rw [hinv.cache]
    unfold GameState.CalculatePossibleActions
    rw [he]
    rfl

/-- C9 (witness): `New()` is not ended and caches the nine placements at
positions 0..8 for player 0, in that order. -/
theorem possibleActions_cache_witness :
    New.IsGameEnded = false ∧
      New.PossibleActions =
        ["\x7b\"playerID\":0,\"position\":0\x7d", "\x7b\"playerID\":0,\"position\":1\x7d",
         "\x7b\"playerID\":0,\"position\":2\x7d", "\x7b\"playerID\":0,\"position\":3\x7d",
         "\x7b\"playerID\":0,\"position\":4\x7d", "\x7b\"playerID\":0,\"position\":5\x7d",
         "\x7b\"playerID\":0,\"position\":6\x7d", "\x7b\"playerID\":0,\"position\":7\x7d",
         "\x7b\"playerID\":0,\"position\":8\x7d"] ∧
      New.PossibleActions.length = countMark New.Board 0 ∧
      (runMoves New winMoves).PossibleActions = [] :=
  ⟨by decide, by decide, ((possibleActions_cache New Reachable.new).2 (by decide)).2,
    (possibleActions_cache _ (reachable_runMoves winMoves New Reachable.new)).1.mpr
      (by decide)⟩

/-! ## Replaying a move -/

/-- C10 (as amended): for every reachable state that is not ended and every
move that is possible in it, applying the move succeeds; applying it again
fails with "action not possible" when the first application left the game
going, and with "game is already ended" when the first application ended the
game. -/
theorem runAction_twice (g : GameState) (a : MoveAction) (hg : Reachable g)
    (he : g.IsGameEnded = false) (hp : a.IsPossible g = true) :
    (g.RunAction (some a)).2 = none ∧
      ((g.RunAction (some a)).1.IsGameEnded = false →
        ((g.RunAction (some a)).1.RunAction (some a)).2 = some "action not possible") ∧
      ((g.RunAction (some a)).1.IsGameEnded = true →
        ((g.RunAction (some a)).1.RunAction (some a)).2 = some "game is already ended") := by
  have hok : (g.RunAction (some a)).2 = none :=
    (runAction_outcome g (some a)).1.mpr (Or.inr ⟨he, a, rfl, hp⟩)
  obtain ⟨-, j, -, -, -, -, hflip, -, -⟩ := move_effect g a hg hok
  refine ⟨hok, fun hgo => ?_, fun hend => ?_⟩
  · apply (runAction_outcome _ (some a)).2.2 a rfl hgo
    cases hposs : a.IsPossible (g.RunAction (some a)).1 with
    | false => rfl
    | true =>
      exfalso
      have h1 := ((isPossible_true_iff a _).mp hposs).1
      have h2 := hflip hgo
      omega
  · exact (runAction_outcome _ (some a)).2.1 a rfl hend

/-- C10 (witness): the replay of the first move of `TestMoveAction`.  From `New()`,
`MoveAction{0, 0}` succeeds, the game goes on, and the same move again fails
with "action not possible". -/
theorem runAction_twice_witness :
    (New.RunAction (some ⟨0, 0⟩)).2 = none ∧
      (New.RunAction (some ⟨0, 0⟩)).1.IsGameEnded = false ∧
      ((New.RunAction (some ⟨0, 0⟩)).1.RunAction (some ⟨0, 0⟩)).2 =
        some "action not possible" :=
  ⟨by decide, by decide,
    (runAction_twice New ⟨0, 0⟩ Reachable.new (by decide) (by decide)).2.1 (by decide)⟩

/-- C10 (counterexample): before the winning move of `TestWinCondition` the
game is not ended and `MoveAction{0, 2}` is possible; applying it succeeds and
ends the game, and applying it again fails with "game is already ended", not
with "action not possible". -/
theorem replay_of_winning_move :
    Reachable beforeWinningMove ∧
      beforeWinningMove.IsGameEnded = false ∧
      (⟨0, 2⟩ : MoveAction).IsPossible beforeWinningMove = true ∧
      (beforeWinningMove.RunAction (some ⟨0, 2⟩)).2 = none ∧
      ((beforeWinningMove.RunAction (some ⟨0, 2⟩)).1.RunAction (some ⟨0, 2⟩)).2 =
        some "game is already ended" ∧
      ((beforeWinningMove.RunAction (some ⟨0, 2⟩)).1.RunAction (some ⟨0, 2⟩)).2 ≠
        some "action not possible" :=
  ⟨reachable_runMoves _ _ Reachable.new, by decide, by decide, by decide, by decide,
    by decide⟩

/-! ## The client view -/

/-- C17: for every game state and every perspective `p` in {0, 1}, the snapshot
mirrors `Board`, `CurrentPlayerID`, `IsGameEnded`, `WinnerPlayerID` and
`PossibleActions`, has `YouPlayerID = p`, `ThemPlayerID = 1 - p`, `YourSymbol`
the mark of player `p` and `TheirSymbol` the mark of player `1 - p` in the
symbol map of the state, and the state itself is unchanged by the call. -/
theorem toClientGameState_mirrors (g : GameState) (p : Int) (hp : p = 0 ∨ p = 1) :
    (g.ToClientGameState p).1 = g ∧
      (g.ToClientGameState p).2.Board = g.Board ∧
      (g.ToClientGameState p).2.CurrentPlayerID = g.CurrentPlayerID ∧
      (g.ToClientGameState p).2.IsGameEnded = g.IsGameEnded ∧
      (g.ToClientGameState p).2.WinnerPlayerID = g.WinnerPlayerID ∧
      (g.ToClientGameState p).2.PossibleActions = g.PossibleActions ∧
      (g.ToClientGameState p).2.YouPlayerID = p ∧
      (g.ToClientGameState p).2.ThemPlayerID = 1 - p ∧
      (g.ToClientGameState p).2.YourSymbol = mapGet g.PlayerSymbols p ∧
      (g.ToClientGameState p).2.TheirSymbol = mapGet g.PlayerSymbols (1 - p) ∧
      (g.PlayerSymbols = [(0, 1), (1, 2)] →
        (g.ToClientGameState p).2.YourSymbol = p + 1 ∧
        (g.ToClientGameState p).2.TheirSymbol = 2 - p) := by
  refine ⟨rfl, rfl, rfl, rfl, rfl, rfl, rfl, rfl, rfl, rfl, ?_⟩
  intro hsym
  simp only [GameState.ToClientGameState, hsym]
  rcases hp with h | h <;> subst h <;> exact ⟨rfl, rfl⟩

/-- C17 (witness): the snapshot of `TestToClientGameState`.  For `New()` and
perspective 0: `YouPlayerID = 0`, `ThemPlayerID = 1`, `YourSymbol = 1`,
`TheirSymbol = 2`, and the state is unchanged. -/
theorem toClientGameState_mirrors_witness :
    (New.ToClientGameState 0).1 = New ∧
      (New.ToClientGameState 0).2.YouPlayerID = 0 ∧
      (New.ToClientGameState 0).2.ThemPlayerID = 1 ∧
      (New.ToClientGameState 0).2.YourSymbol = 1 ∧
      (New.ToClientGameState 0).2.TheirSymbol = 2 ∧
      (New.ToClientGameState 0).2.PossibleActions = New.PossibleActions :=
  have h := toClientGameState_mirrors New 0 (Or.inl rfl)
  ⟨h.1, h.2.2.2.2.2.2.1, h.2.2.2.2.2.2.2.1, (h.2.2.2.2.2.2.2.2.2.2 rfl).1,
    (h.2.2.2.2.2.2.2.2.2.2 rfl).2, h.2.2.2.2.2.1⟩

/-! ## Decimal text of integers -/

theorem digitChar_toNat (k : Nat) (hk : k < 10) : (Nat.digitChar k).toNat - 48 = k := by
  interval_cases k <;> rfl

theorem digitChar_isDigit (k : Nat) (hk : k < 10) : (Nat.digitChar k).isDigit = true := by
  interval_cases k <;> rfl

theorem digitChar_ne_zero (k : Nat) (hk : k < 10) (h0 : 0 < k) : Nat.digitChar k ≠ '0' := by
  interval_cases k <;> decide

theorem foldl_digits (l : List Char) (a : Nat) :
    l.foldl (fun acc c => 10 * acc + (c.toNat - 48)) a =
      a * 10 ^ l.length + l.foldl (fun acc c => 10 * acc + (c.toNat - 48)) 0 := by
  induction l generalizing a with
  | nil => simp
  | cons c tl ih =>
    simp only [List.foldl_cons, List.length_cons]
    rw [ih (10 * a + (c.toNat - 48)), ih (10 * 0 + (c.toNat - 48))]
    ring

theorem digitsValue_cons (c : Char) (l : List Char) :
    digitsValue (c :: l) = (c.toNat - 48) * 10 ^ l.length + digitsValue l := by
  unfold digitsValue
  rw [List.foldl_cons, foldl_digits]
  simp

theorem toDigitsCore_isDigit (fuel : Nat) :
    ∀ (n : Nat) (acc : List Char), (∀ c ∈ acc, c.isDigit = true) →
      ∀ c ∈ Nat.toDigitsCore 10 fuel n acc, c.isDigit = true := by
  induction fuel with
  | zero => intro n acc hacc; simpa [Nat.toDigitsCore] using hacc
  | succ fuel ih =>
    intro n acc hacc
    have hd : (Nat.digitChar (n % 10)).isDigit = true :=
      digitChar_isDigit _ (Nat.mod_lt _ (by decide))
    have hacc2 : ∀ c ∈ Nat.digitChar (n % 10) :: acc, c.isDigit = true := by
      intro c hc
      rcases List.mem_cons.mp hc with h | h
      · rw [h]; exact hd
      · exact hacc c h
    simp only [Nat.toDigitsCore]
    split
    · exact hacc2
    · exact ih _ _ hacc2

theorem toDigitsCore_value (fuel : Nat) :
    ∀ (n : Nat) (acc : List Char), n < fuel →
      digitsValue (Nat.toDigitsCore 10 fuel n acc) = n * 10 ^ acc.length + digitsValue acc := by
  induction fuel with
  | zero => intro n acc h; omega
  | succ fuel ih =>
    intro n acc hn
    have hval := digitChar_toNat (n % 10) (Nat.mod_lt _ (by decide))
    simp only [Nat.toDigitsCore]
    split
    · rename_i h0
      rw [digitsValue_cons, hval]
      have : n % 10 = n := by omega
      rw [this]
    · rename_i h0
      have hlt : n / 10 < fuel := by omega
      rw [ih (n / 10) _ hlt, digitsValue_cons, hval, List.length_cons, pow_succ]
      have hn10 : n = 10 * (n / 10) + n % 10 := (Nat.div_add_mod n 10).symm
      generalize n / 10 = q at hn10 ⊢
      generalize n % 10 = r at hn10 ⊢
      subst hn10
      ring

theorem toDigitsCore_head (fuel : Nat) :
    ∀ (n : Nat) (acc : List Char), 0 < n → n < fuel →
      ∃ d tl, Nat.toDigitsCore 10 fuel n acc = d :: tl ∧ d ≠ '0' := by
  induction fuel with
  | zero => intro n acc _ h; omega
  | succ fuel ih =>
    intro n acc hpos hn
    simp only [Nat.toDigitsCore]
    split
    · rename_i h0
      refine ⟨_, _, rfl, digitChar_ne_zero _ (Nat.mod_lt _ (by decide)) ?_⟩
      omega
    · rename_i h0
      exact ih (n / 10) _ (by omega) (by omega)

theorem isNatText_toDigits (m : Nat) : IsNatText (Nat.toDigits 10 m) := by
  rcases Nat.eq_zero_or_pos m with h | h
  · subst h; exact Or.inl rfl
  · right
    obtain ⟨d, tl, heq, hd⟩ := toDigitsCore_head (m + 1) m [] h (by omega)
    have hall := toDigitsCore_isDigit (m + 1) m [] (by simp)
    unfold Nat.toDigits
    rw [heq] at hall ⊢
    exact ⟨d, tl, rfl, hall d (List.mem_cons_self _ _), hd,
      fun c hc => hall c (List.mem_cons_of_mem _ hc)⟩

theorem digitsValue_toDigits (m : Nat) : digitsValue (Nat.toDigits 10 m) = m := by
  unfold Nat.toDigits
  rw [toDigitsCore_value (m + 1) m [] (by omega)]
  simp [digitsValue]

/-! ## Scanning the text of an integer -/

theorem isNatText_all_digits (ds : List Char) (h : IsNatText ds) :
    ∀ c ∈ ds, c.isDigit = true := by
  rcases h with h | ⟨d, tl, h, hd, -, htl⟩
  · subst h; decide
  · subst h
    intro c hc
    rcases List.mem_cons.mp hc with e | e
    · rw [e]; exact hd
    · exact htl c e

theorem isNatText_ne_nil (ds : List Char) (h : IsNatText ds) : ds ≠ [] := by
  rcases h with h | ⟨d, tl, h, -⟩ <;> subst h <;> simp

theorem takeDigits_append (ds : List Char) (c : Char) (rest : List Char)
    (hds : ∀ x ∈ ds, x.isDigit = true) (hc : c.isDigit = false) :
    takeDigits (ds ++ c :: rest) = (ds, c :: rest) := by
  induction ds with
  | nil => simp [takeDigits, hc]
  | cons d tl ih =>
    have hd : d.isDigit = true := hds d (List.mem_cons_self _ _)
    have ih2 := ih (fun x hx => hds x (List.mem_cons_of_mem _ hx))
    simp [takeDigits, hd, ih2]

theorem scanFraction_end (text : List Char) (c : Char) (rest : List Char)
    (hc : endsNumber c) : scanFraction text (c :: rest) = some (text, c :: rest) := by
  obtain ⟨-, h1, h2, h3⟩ := hc
  simp [scanFraction, scanExponent, h1, h2, h3]

theorem scanInteger_natText (text ds : List Char) (c : Char) (rest : List Char)
    (hds : IsNatText ds) (hc : endsNumber c) :
    scanInteger text (ds ++ c :: rest) = some (text ++ ds, c :: rest) := by
  rcases hds with h | ⟨d, tl, h, hd, hd0, htl⟩
  · subst h
    simp only [List.cons_append, List.nil_append, scanInteger, if_true]
    exact scanFraction_end _ c rest hc
  · subst h
    have htake := takeDigits_append tl c rest htl hc.1
    simp only [List.cons_append, scanInteger, hd0, if_false, hd, if_true, htake]
    exact scanFraction_end _ c rest hc

theorem digit_ne (d c : Char) (hd : d.isDigit = true) (hc : c.isDigit = false) : d ≠ c := by
  intro h
  rw [h, hc] at hd
  exact absurd hd (by decide)

-- The text of an integer is the text of a natural number, with a minus sign in
-- front when negative.
theorem scanNumber_intText (neg : Bool) (ds : List Char) (c : Char) (rest : List Char)
    (hds : IsNatText ds) (hc : endsNumber c) :
    scanNumber ((if neg then ['-'] else []) ++ ds ++ c :: rest) =
      some ((if neg then ['-'] else []) ++ ds, c :: rest) := by
  cases neg with
  | true =>
    simp only [if_true, List.cons_append, List.nil_append, scanNumber]
    exact scanInteger_natText ['-'] ds c rest hds hc
  | false =>
    simp only [Bool.false_eq_true, if_false, List.nil_append]
    obtain ⟨d, tl, hdtl⟩ := List.exists_cons_of_ne_nil (isNatText_ne_nil ds hds)
    have hd : d.isDigit = true := by
      apply isNatText_all_digits ds hds
      rw [hdtl]; exact List.mem_cons_self _ _
    have hne : d ≠ '-' := digit_ne d '-' hd (by decide)
    have h := scanInteger_natText [] ds c rest hds hc
    rw [hdtl] at h ⊢
    simp only [List.cons_append, scanNumber, hne, if_false]
    simpa using h

theorem intText_head (neg : Bool) (ds : List Char) (hds : IsNatText ds) :
    ∃ d tl, (if neg then ['-'] else []) ++ ds = d :: tl ∧ (d = '-' ∨ d.isDigit = true) := by
  cases neg with
  | true => exact ⟨'-', ds, by simp, Or.inl rfl⟩
  | false =>
    obtain ⟨d, tl, hdtl⟩ := List.exists_cons_of_ne_nil (isNatText_ne_nil ds hds)
    refine ⟨d, tl, by simp [hdtl], Or.inr ?_⟩
    apply isNatText_all_digits ds hds
    rw [hdtl]; exact List.mem_cons_self _ _

theorem numberStart_ne (d c : Char) (hd : d = '-' ∨ d.isDigit = true)
    (hc : c ≠ '-') (hc2 : c.isDigit = false) : d ≠ c := by
  rcases hd with h | h
  · rw [h]; exact fun e => hc e.symm
  · exact digit_ne d c h hc2

theorem skipSpace_intText (neg : Bool) (ds rest : List Char) (hds : IsNatText ds) :
    skipSpace ((if neg then ['-'] else []) ++ ds ++ rest) =
      (if neg then ['-'] else []) ++ ds ++ rest := by
  obtain ⟨d, tl, heq, hd⟩ := intText_head neg ds hds
  rw [heq]
  have hsp : isSpace d = false := by
    have h1 := numberStart_ne d ' ' hd (by decide) (by decide)
    have h2 := numberStart_ne d '\t' hd (by decide) (by decide)
    have h3 := numberStart_ne d '\r' hd (by decide) (by decide)
    have h4 := numberStart_ne d '\n' hd (by decide) (by decide)
    simp [isSpace, h1, h2, h3, h4]
  simp [skipSpace, hsp]

theorem parseValue_intText (fuel depth : Nat) (neg : Bool) (ds : List Char) (c : Char)
    (rest : List Char) (hds : IsNatText ds) (hc : endsNumber c) :
    parseValue (fuel + 1) depth ((if neg then ['-'] else []) ++ ds ++ c :: rest) =
      some (.num ((if neg then ['-'] else []) ++ ds), c :: rest) := by
  have hscan := scanNumber_intText neg ds c rest hds hc
  obtain ⟨d, tl, heq, hd⟩ := intText_head neg ds hds
  have hlist : (if neg then ['-'] else []) ++ ds ++ c :: rest = d :: (tl ++ c :: rest) := by
    rw [heq]; rfl
  rw [hlist] at hscan ⊢
  have h1 := numberStart_ne d '\x7b' hd (by decide) (by decide)
  have h2 := numberStart_ne d '\x5b' hd (by decide) (by decide)
  have h3 := numberStart_ne d '\x22' hd (by decide) (by decide)
  have h4 := numberStart_ne d 't' hd (by decide) (by decide)
  have h5 := numberStart_ne d 'f' hd (by decide) (by decide)
  have h6 := numberStart_ne d 'n' hd (by decide) (by decide)
  simp only [parseValue, h1, h2, h3, h4, h5, h6, if_false, hscan]

theorem parseInt64_intText (neg : Bool) (ds : List Char) (hds : IsNatText ds) :
    parseInt64 ((if neg then ['-'] else []) ++ ds) =
      if neg then
        (if digitsValue ds ≤ 2 ^ 63 then some (-(digitsValue ds : Int)) else none)
      else (if digitsValue ds < 2 ^ 63 then some (digitsValue ds : Int) else none) := by
  have hall : ds.all Char.isDigit = true := by
    rw [List.all_eq_true]; exact isNatText_all_digits ds hds
  have hne := isNatText_ne_nil ds hds
  cases neg with
  | true =>
    simp [parseInt64, hall, hne]
  | false =>
    obtain ⟨d, tl, hdtl⟩ := List.exists_cons_of_ne_nil hne
    have hd : d.isDigit = true := by
      apply isNatText_all_digits ds hds
      rw [hdtl]; exact List.mem_cons_self _ _
    have hm : d ≠ '-' := digit_ne d '-' hd (by decide)
    have hp : d ≠ '+' := digit_ne d '+' hd (by decide)
    rw [hdtl] at hall hne ⊢
    simp [parseInt64, hall, hm, hp]

/-! ## Round trip of the action wire form -/

theorem intText_eq (n : Int) :
    ∃ (neg : Bool) (ds : List Char),
      (toString n).data = (if neg then ['-'] else []) ++ ds ∧ IsNatText ds ∧
        n = if neg then -(digitsValue ds : Int) else (digitsValue ds : Int) := by
  cases n with
  | ofNat m =>
    refine ⟨false, Nat.toDigits 10 m, rfl, isNatText_toDigits m, ?_⟩
    simp [digitsValue_toDigits]
  | negSucc m =>
    refine ⟨true, Nat.toDigits 10 (m + 1), rfl, isNatText_toDigits (m + 1), ?_⟩
    simp only [if_true, digitsValue_toDigits]
    rfl

theorem scanString_playerID (rest : List Char) :
    scanString .plain [] ('p' :: 'l' :: 'a' :: 'y' :: 'e' :: 'r' :: 'I' :: 'D' :: '\x22' :: rest) =
      some (['p', 'l', 'a', 'y', 'e', 'r', 'I', 'D'], rest) := rfl

theorem scanString_position (rest : List Char) :
    scanString .plain [] ('p' :: 'o' :: 's' :: 'i' :: 't' :: 'i' :: 'o' :: 'n' :: '\x22' :: rest) =
      some (['p', 'o', 's', 'i', 't', 'i', 'o', 'n'], rest) := rfl

theorem endsNumber_comma : endsNumber ',' := by
  refine ⟨by decide, by decide, by decide, by decide⟩

theorem endsNumber_brace : endsNumber '\x7d' := by
  refine ⟨by decide, by decide, by decide, by decide⟩

theorem parseValue_record (k : Nat) (negP negQ : Bool) (dsP dsQ : List Char)
    (hP : IsNatText dsP) (hQ : IsNatText dsQ) :
    parseValue (k + 4) 0
        ('\x7b' :: '\x22' :: 'p' :: 'l' :: 'a' :: 'y' :: 'e' :: 'r' :: 'I' :: 'D' :: '\x22' :: ':' ::
          ((if negP then ['-'] else []) ++ dsP ++
            ',' :: '\x22' :: 'p' :: 'o' :: 's' :: 'i' :: 't' :: 'i' :: 'o' :: 'n' :: '\x22' :: ':' ::
              ((if negQ then ['-'] else []) ++ dsQ ++ ['\x7d']))) =
      some (.obj [(['p', 'l', 'a', 'y', 'e', 'r', 'I', 'D'],
              .num ((if negP then ['-'] else []) ++ dsP)),
            (['p', 'o', 's', 'i', 't', 'i', 'o', 'n'],
              .num ((if negQ then ['-'] else []) ++ dsQ))], []) := by
  have hvQ := parseValue_intText k 1 negQ dsQ '\x7d' [] hQ endsNumber_brace
  have hsQ := skipSpace_intText negQ dsQ ['\x7d'] hQ
  have hvP := parseValue_intText (k + 1) 1 negP dsP ','
    ('\x22' :: 'p' :: 'o' :: 's' :: 'i' :: 't' :: 'i' :: 'o' :: 'n' :: '\x22' :: ':' ::
      ((if negQ then ['-'] else []) ++ dsQ ++ ['\x7d'])) hP endsNumber_comma
  have hsP := skipSpace_intText negP dsP
    (',' :: '\x22' :: 'p' :: 'o' :: 's' :: 'i' :: 't' :: 'i' :: 'o' :: 'n' :: '\x22' :: ':' ::
      ((if negQ then ['-'] else []) ++ dsQ ++ ['\x7d'])) hP
  have hmQ : parseMembers (k + 2) 1
      ('\x22' :: 'p' :: 'o' :: 's' :: 'i' :: 't' :: 'i' :: 'o' :: 'n' :: '\x22' :: ':' ::
        ((if negQ then ['-'] else []) ++ dsQ ++ ['\x7d']))
      [(['p', 'l', 'a', 'y', 'e', 'r', 'I', 'D'], .num ((if negP then ['-'] else []) ++ dsP))] =
      some (.obj [(['p', 'l', 'a', 'y', 'e', 'r', 'I', 'D'],
              .num ((if negP then ['-'] else []) ++ dsP)),
            (['p', 'o', 's', 'i', 't', 'i', 'o', 'n'],
              .num ((if negQ then ['-'] else []) ++ dsQ))], []) := by
    rw [parseMembers]
    simp only [if_true, scanString_position]
    have h1 : skipSpace (':' :: ((if negQ then ['-'] else []) ++ dsQ ++ ['\x7d'])) =
        ':' :: ((if negQ then ['-'] else []) ++ dsQ ++ ['\x7d']) := rfl
    simp only [h1, if_true, hsQ, hvQ]
    rfl
  rw [parseValue]
  have h0 : ∀ rest, skipSpace ('\x22' :: rest) = '\x22' :: rest := fun _ => rfl
  simp only [if_true, h0]
  have hd : ¬ (10000 ≤ 0) := by decide
  have hq : ('\x22' : Char) ≠ '\x7d' := by decide
  simp only [hd, hq, if_false]
  rw [parseMembers]
  simp only [if_true, scanString_playerID]
  have h1 : ∀ rest, skipSpace (':' :: rest) = ':' :: rest := fun _ => rfl
  have h2 : ∀ rest, skipSpace (',' :: rest) = ',' :: rest := fun _ => rfl
  simp only [h1, if_true, hsP, hvP, h2, h0, hmQ]

theorem parseInt64_toString (n : Int) (hn : -(2 : Int) ^ 63 ≤ n ∧ n < (2 : Int) ^ 63)
    (neg : Bool) (ds : List Char) (hds : IsNatText ds)
    (hval : n = if neg then -(digitsValue ds : Int) else (digitsValue ds : Int)) :
    parseInt64 ((if neg then ['-'] else []) ++ ds) = some n := by
  rw [parseInt64_intText neg ds hds]
  cases neg with
  | true =>
    simp only [if_true] at hval ⊢
    have h : digitsValue ds ≤ 2 ^ 63 := by
      have h1 := hn.1
      rw [hval] at h1
      have h2 : ((digitsValue ds : Nat) : Int) ≤ ((2 ^ 63 : Nat) : Int) := by
        push_cast
        linarith
      exact Int.ofNat_le.mp h2
    rw [if_pos h, hval]
  | false =>
    simp only [Bool.false_eq_true, if_false] at hval ⊢
    have h : digitsValue ds < 2 ^ 63 := by
      have h1 := hn.2
      rw [hval] at h1
      have h2 : ((digitsValue ds : Nat) : Int) < ((2 ^ 63 : Nat) : Int) := by
        push_cast
        exact h1
      exact Int.ofNat_lt.mp h2
    rw [if_pos h, hval]

theorem deserialize_marshal (a : MoveAction)
    (hP : -(2 : Int) ^ 63 ≤ a.PlayerID ∧ a.PlayerID < (2 : Int) ^ 63)
    (hQ : -(2 : Int) ^ 63 ≤ a.Position ∧ a.Position < (2 : Int) ^ 63) :
    ∃ raw, jsonMarshal a = .ok raw ∧ DeserializeAction raw = .ok a := by
  refine ⟨_, rfl, ?_⟩
  obtain ⟨negP, dsP, hdP, hnP, hvP⟩ := intText_eq a.PlayerID
  obtain ⟨negQ, dsQ, hdQ, hnQ, hvQ⟩ := intText_eq a.Position
  have hdata : ("\x7b\"playerID\":" ++ toString a.PlayerID ++ ",\"position\":" ++
      toString a.Position ++ "\x7d").data =
      '\x7b' :: '\x22' :: 'p' :: 'l' :: 'a' :: 'y' :: 'e' :: 'r' :: 'I' :: 'D' :: '\x22' :: ':' ::
        ((if negP then ['-'] else []) ++ dsP ++
          ',' :: '\x22' :: 'p' :: 'o' :: 's' :: 'i' :: 't' :: 'i' :: 'o' :: 'n' :: '\x22' :: ':' ::
            ((if negQ then ['-'] else []) ++ dsQ ++ ['\x7d'])) := by
    simp only [String.data_append, hdP, hdQ]
    simp
  have hparse : parseJSON ("\x7b\"playerID\":" ++ toString a.PlayerID ++ ",\"position\":" ++
      toString a.Position ++ "\x7d").data =
      some (.obj [(['p', 'l', 'a', 'y', 'e', 'r', 'I', 'D'],
              .num ((if negP then ['-'] else []) ++ dsP)),
            (['p', 'o', 's', 'i', 't', 'i', 'o', 'n'],
              .num ((if negQ then ['-'] else []) ++ dsQ))]) := by
    rw [hdata]
    unfold parseJSON
    have hskip : ∀ rest, skipSpace ('\x7b' :: rest) = '\x7b' :: rest := fun _ => rfl
    rw [hskip]
    obtain ⟨k, hk⟩ : ∃ k, ('\x7b' :: '\x22' :: 'p' :: 'l' :: 'a' :: 'y' :: 'e' :: 'r' :: 'I' ::
        'D' :: '\x22' :: ':' ::
        ((if negP then ['-'] else []) ++ dsP ++
          ',' :: '\x22' :: 'p' :: 'o' :: 's' :: 'i' :: 't' :: 'i' :: 'o' :: 'n' :: '\x22' :: ':' ::
            ((if negQ then ['-'] else []) ++ dsQ ++ ['\x7d']))).length + 1 = k + 4 := by
      exact ⟨_, rfl⟩
    rw [hk, parseValue_record k negP negQ dsP dsQ hnP hnQ]
    rfl
  have hstoreP := parseInt64_toString a.PlayerID hP negP dsP hnP hvP
  have hstoreQ := parseInt64_toString a.Position hQ negQ dsQ hnQ hvQ
  have hfP : matchField ['p', 'l', 'a', 'y', 'e', 'r', 'I', 'D'] = some .playerID := rfl
  have hfQ : matchField ['p', 'o', 's', 'i', 't', 'i', 'o', 'n'] = some .position := rfl
  simp only [jsonMarshal, DeserializeAction, jsonUnmarshal, hparse, decodeMembers, hfP, hfQ,
    storeInt, hstoreP, hstoreQ]

/-- C18: round trip.  For every `MoveAction` whose two fields are Go `int`
values (64 bits), `json.Marshal` yields a record on which `DeserializeAction`
succeeds and returns an action equal to the original one. -/
theorem deserializeAction_roundtrip (a : MoveAction)
    (hP : -(2 : Int) ^ 63 ≤ a.PlayerID ∧ a.PlayerID < (2 : Int) ^ 63)
    (hQ : -(2 : Int) ^ 63 ≤ a.Position ∧ a.Position < (2 : Int) ^ 63) :
    ∃ raw, jsonMarshal a = .ok raw ∧ DeserializeAction raw = .ok a :=
  deserialize_marshal a hP hQ

/-- C18 (witness): the round trip of `MoveAction{1, 4}`, whose wire form is the
record with `playerID` 1 and `position` 4, and of an action with a negative
and a largest field. -/
theorem deserializeAction_roundtrip_witness :
    (∃ raw, jsonMarshal ⟨1, 4⟩ = .ok raw ∧ DeserializeAction raw = .ok ⟨1, 4⟩) ∧
      jsonMarshal ⟨1, 4⟩ = .ok "\x7b\"playerID\":1,\"position\":4\x7d" ∧
      (∃ raw, jsonMarshal ⟨-7, 9223372036854775807⟩ = .ok raw ∧
        DeserializeAction raw = .ok ⟨-7, 9223372036854775807⟩) :=
  ⟨deserializeAction_roundtrip ⟨1, 4⟩ (by decide) (by decide), by decide,
    deserializeAction_roundtrip ⟨-7, 9223372036854775807⟩ (by decide) (by decide)⟩

/-! ## What `DeserializeAction` rejects -/

/-- C16 (failing input): on a snapshot of a game in progress whose only legal
action entry decodes to a placement at position 9, `ChooseAction` reaches
`isWinningMove`, whose board write at index 9 stops with a run-time panic,
whatever the random source draws. -/
theorem chooseAction_faults_on_stray_position (r : Nat) :
    SimpleBot.decodeActions strayPositionSnapshot.PossibleActions = [⟨1, 9⟩] ∧
      SimpleBot.isWinningMove strayPositionSnapshot.Board 9 2 = none ∧
      SimpleBot.ChooseAction strayPositionSnapshot r = none :=
  ⟨by decide, by decide, rfl⟩

/-! ## The bot on an arbitrary snapshot -/

theorem isWinningMove_in_range (b : Board) (pos sym : Int) (h : 0 ≤ pos ∧ pos ≤ 8) :
    ∃ w, SimpleBot.isWinningMove b pos sym = some w := by
  unfold SimpleBot.isWinningMove
  rw [dif_pos h]
  exact ⟨_, rfl⟩

theorem winningLoop_mem (b : Board) (sym : Int) (actions : List MoveAction)
    (hr : ∀ a ∈ actions, 0 ≤ a.Position ∧ a.Position ≤ 8) :
    ∃ res, SimpleBot.winningLoop b sym actions = some res ∧
      ∀ a, res = some a → a ∈ actions := by
  induction actions with
  | nil => exact ⟨none, rfl, fun a h => absurd h (by simp)⟩
  | cons x rest ih =>
    obtain ⟨w, hw⟩ := isWinningMove_in_range b x.Position sym (hr x (List.mem_cons_self _ _))
    obtain ⟨res, hres, hmem⟩ := ih (fun a ha => hr a (List.mem_cons_of_mem _ ha))
    cases w with
    | true =>
      refine ⟨some x, by simp only [SimpleBot.winningLoop, hw], ?_⟩
      intro a ha
      cases ha
      exact List.mem_cons_self _ _
    | false =>
      refine ⟨res, by simp only [SimpleBot.winningLoop, hw, hres], ?_⟩
      intro a ha
      exact List.mem_cons_of_mem _ (hmem a ha)

theorem actionAt_mem (actions : List MoveAction) (pos : Int) (a : MoveAction)
    (h : SimpleBot.actionAt actions pos = some a) : a ∈ actions :=
  List.mem_of_find?_eq_some h

theorem mem_decodeActions (raws : List RawMessage) (a : MoveAction) :
    a ∈ SimpleBot.decodeActions raws ↔ ∃ raw ∈ raws, DeserializeAction raw = .ok a := by
  unfold SimpleBot.decodeActions
  rw [List.mem_filterMap]
  constructor
  · rintro ⟨raw, hraw, h⟩
    refine ⟨raw, hraw, ?_⟩
    cases hd : DeserializeAction raw with
    | ok x => rw [hd] at h; cases h; rfl
    | error e => rw [hd] at h; exact absurd h (by simp)
  · rintro ⟨raw, hraw, h⟩
    exact ⟨raw, hraw, by rw [h]⟩

theorem chooseAction_picks (s : ClientGameState) (r : Nat)
    (hgo : s.IsGameEnded = false)
    (hne : SimpleBot.decodeActions s.PossibleActions ≠ [])
    (hr : ∀ a ∈ SimpleBot.decodeActions s.PossibleActions, 0 ≤ a.Position ∧ a.Position ≤ 8) :
    ∃ a ∈ SimpleBot.decodeActions s.PossibleActions,
      SimpleBot.ChooseAction s r = some (some a) := by
  have hlen : ¬ (SimpleBot.decodeActions s.PossibleActions).length = 0 := by
    intro h; exact hne (List.length_eq_zero.mp h)
  have hpos : 0 < (SimpleBot.decodeActions s.PossibleActions).length := by omega
  obtain ⟨w1, hw1, hm1⟩ := winningLoop_mem s.Board s.YourSymbol _ hr
  obtain ⟨w2, hw2, hm2⟩ := winningLoop_mem s.Board s.TheirSymbol _ hr
  unfold SimpleBot.ChooseAction
  simp only [hgo, Bool.false_eq_true, if_false, hlen, hw1, hw2]
  cases w1 with
  | some a => exact ⟨a, hm1 a rfl, rfl⟩
  | none =>
    cases w2 with
    | some a => exact ⟨a, hm2 a rfl, rfl⟩
    | none =>
      cases hc : SimpleBot.actionAt (SimpleBot.decodeActions s.PossibleActions) 4 with
      | some a => exact ⟨a, actionAt_mem _ _ _ hc, rfl⟩
      | none =>
        cases hk : [0, 2, 6, 8].findSome?
            (fun corner => SimpleBot.actionAt (SimpleBot.decodeActions s.PossibleActions) corner)
          with
        | some a =>
          obtain ⟨c, -, hcn⟩ := List.exists_of_findSome?_eq_some hk
          exact ⟨a, actionAt_mem _ _ _ hcn, by simp only [hk]⟩
        | none =>
          refine ⟨(SimpleBot.decodeActions s.PossibleActions).get
            ⟨r % (SimpleBot.decodeActions s.PossibleActions).length, Nat.mod_lt r hpos⟩,
            List.get_mem _ _ _, ?_⟩
          simp only [hk, dif_pos hpos]

theorem chooseAction_contract (s : ClientGameState) (r : Nat)
    (hdec : ∀ raw ∈ s.PossibleActions,
      ∃ a, DeserializeAction raw = .ok a ∧ 0 ≤ a.Position ∧ a.Position ≤ 8) :
    ∃ res, SimpleBot.ChooseAction s r = some res ∧
      (res = none ↔ s.IsGameEnded = true ∨ s.PossibleActions = []) ∧
      ∀ a, res = some a → ∃ raw ∈ s.PossibleActions, DeserializeAction raw = .ok a := by
  have hr : ∀ a ∈ SimpleBot.decodeActions s.PossibleActions,
      0 ≤ a.Position ∧ a.Position ≤ 8 := by
    intro a ha
    obtain ⟨raw, hraw, hd⟩ := (mem_decodeActions _ a).mp ha
    obtain ⟨b, hb, hrange⟩ := hdec raw hraw
    rw [hd] at hb
    cases hb
    exact hrange
  cases hgo : s.IsGameEnded with
  | true =>
    refine ⟨none, by simp [SimpleBot.ChooseAction, hgo], by simp, fun a h => absurd h (by simp)⟩
  | false =>
    cases hl : s.PossibleActions with
    | nil =>
      refine ⟨none, by simp [SimpleBot.ChooseAction, hgo, hl, SimpleBot.decodeActions], by simp,
        fun a h => absurd h (by simp)⟩
    | cons raw rest =>
      have hne : SimpleBot.decodeActions s.PossibleActions ≠ [] := by
        obtain ⟨a, ha, -⟩ := hdec raw (by rw [hl]; exact List.mem_cons_self _ _)
        have hmem : a ∈ SimpleBot.decodeActions s.PossibleActions :=
          (mem_decodeActions _ a).mpr ⟨raw, by rw [hl]; exact List.mem_cons_self _ _, ha⟩
        exact List.ne_nil_of_mem hmem
      obtain ⟨a, ha, hch⟩ := chooseAction_picks s r hgo hne hr
      refine ⟨some a, hch, by simp, ?_⟩
      intro b hb
      cases hb
      rw [← hl]
      exact (mem_decodeActions _ a).mp ha

/-! ## The bot on the snapshot of a reachable state -/

theorem decode_serialize (l : List MoveAction)
    (hl : ∀ a ∈ l, (-(2 : Int) ^ 63 ≤ a.PlayerID ∧ a.PlayerID < (2 : Int) ^ 63) ∧
      (-(2 : Int) ^ 63 ≤ a.Position ∧ a.Position < (2 : Int) ^ 63)) :
    SimpleBot.decodeActions (serializeActions l) = l := by
  induction l with
  | nil => rfl
  | cons a rest ih =>
    obtain ⟨raw, hraw, hdec⟩ := deserialize_marshal a (hl a (List.mem_cons_self _ _)).1
      (hl a (List.mem_cons_self _ _)).2
    have hcons : serializeActions (a :: rest) = raw :: serializeActions rest := by
      simp only [serializeActions, List.filterMap_cons, hraw]
    have ih2 := ih (fun x hx => hl x (List.mem_cons_of_mem _ hx))
    rw [hcons]
    unfold SimpleBot.decodeActions at ih2 ⊢
    simp only [List.filterMap_cons, hdec, ih2]

theorem decodeActions_reachable (g : GameState) (hg : Reachable g)
    (he : g.IsGameEnded = false) :
    SimpleBot.decodeActions g.PossibleActions =
      (emptyCells g.Board).map
        (fun i : Fin 9 => ({ PlayerID := g.CurrentPlayerID, Position := ((i : Nat) : Int) } :
          MoveAction)) := by
  have hinv := inv_of_reachable g hg
  obtain ⟨-, -, -, hturn⟩ := hinv.active he
  have hcur : g.CurrentPlayerID = 0 ∨ g.CurrentPlayerID = 1 := by
    rcases hturn with h | h
    · exact Or.inl h.1
    · exact Or.inr h.1
  rw [hinv.cache, calculatePossibleActions_active g he]
  apply decode_serialize
  intro a ha
  obtain ⟨i, -, hi⟩ := List.mem_map.mp ha
  subst hi
  have hi9 := i.isLt
  simp only
  constructor
  · rcases hcur with h | h <;> rw [h] <;> decide
  · constructor
    · have : (0 : Int) ≤ ((i : Nat) : Int) := Int.ofNat_nonneg _
      have h2 : -(2 : Int) ^ 63 ≤ 0 := by decide
      exact le_trans h2 this
    · have : ((i : Nat) : Int) < 9 := by exact_mod_cast hi9
      have h2 : (9 : Int) < 2 ^ 63 := by decide
      exact lt_trans this h2

theorem isWinningMove_cell (b : Board) (q : Fin 9) (m : Int) :
    SimpleBot.isWinningMove b ((q : Nat) : Int) m = some (decide (completesLine b m q)) := by
  have hq := q.isLt
  have hr : 0 ≤ ((q : Nat) : Int) ∧ ((q : Nat) : Int) ≤ 8 := by omega
  unfold SimpleBot.isWinningMove
  rw [dif_pos hr]
  simp only [Int.toNat_ofNat, Fin.eta]
  congr 1
  rw [Bool.eq_iff_iff]
  simp only [List.any_eq_true, Bool.and_eq_true, beq_iff_eq, decide_eq_true_eq, completesLine,
    lineFilledWith, and_assoc]

theorem winningLoop_cells (b : Board) (m p : Int) (cells : List (Fin 9)) :
    SimpleBot.winningLoop b m
        (cells.map (fun i : Fin 9 => ({ PlayerID := p, Position := ((i : Nat) : Int) } :
          MoveAction))) =
      some ((cells.find? (fun q => decide (completesLine b m q))).map
        (fun i : Fin 9 => ({ PlayerID := p, Position := ((i : Nat) : Int) } : MoveAction))) := by
  induction cells with
  | nil => rfl
  | cons q rest ih =>
    simp only [List.map_cons, SimpleBot.winningLoop, isWinningMove_cell, List.find?_cons]
    by_cases h : completesLine b m q
    · simp [h]
    · simp [h, ih]

theorem mem_emptyCells (b : Board) (q : Fin 9) : q ∈ emptyCells b ↔ b q = 0 := by
  simp [emptyCells, List.mem_filter, List.mem_finRange]

theorem find_emptyCells_none (b : Board) (P : Fin 9 → Prop) [DecidablePred P]
    (h : ¬ ∃ q, b q = 0 ∧ P q) :
    (emptyCells b).find? (fun q => decide (P q)) = none := by
  rw [List.find?_eq_none]
  intro q hq hP
  exact h ⟨q, (mem_emptyCells b q).mp hq, by simpa using hP⟩

theorem find_emptyCells_some (b : Board) (P : Fin 9 → Prop) [DecidablePred P]
    (h : ∃ q, b q = 0 ∧ P q) :
    ∃ q, (emptyCells b).find? (fun q => decide (P q)) = some q ∧ b q = 0 ∧ P q ∧
      ∀ q2, q2 < q → ¬ (b q2 = 0 ∧ P q2) := by
  cases hf : (emptyCells b).find? (fun q => decide (P q)) with
  | none =>
    exfalso
    rw [List.find?_eq_none] at hf
    obtain ⟨q, hq0, hqP⟩ := h
    exact hf q ((mem_emptyCells b q).mpr hq0) (by simpa using hqP)
  | some q =>
    have hmem : q ∈ emptyCells b := List.mem_of_find?_eq_some hf
    obtain ⟨hPq, as, bs, hsplit, hbefore⟩ := List.find?_eq_some.mp hf
    have hsorted : (emptyCells b).Pairwise (· < ·) :=
      (List.pairwise_lt_finRange 9).filter _
    refine ⟨q, rfl, (mem_emptyCells b q).mp hmem, by simpa using hPq, ?_⟩
    rintro q2 hlt ⟨h0, hP2⟩
    have hmem2 : q2 ∈ emptyCells b := (mem_emptyCells b q2).mpr h0
    rw [hsplit] at hmem2 hsorted
    rcases List.mem_append.mp hmem2 with hin | hin
    · have := hbefore q2 hin
      simp [hP2] at this
    · rcases List.mem_cons.mp hin with heq | hin2
      · rw [heq] at hlt; exact lt_irrefl _ hlt
      · have hpw := (List.pairwise_append.mp hsorted).2.1
        have := (List.pairwise_cons.mp hpw).1 q2 hin2
        exact lt_asymm hlt this

theorem actionAt_cells (p : Int) (cells : List (Fin 9)) (c : Fin 9) :
    SimpleBot.actionAt
        (cells.map (fun i : Fin 9 => ({ PlayerID := p, Position := ((i : Nat) : Int) } :
          MoveAction))) ((c : Nat) : Int) =
      if c ∈ cells then some { PlayerID := p, Position := ((c : Nat) : Int) } else none := by
  induction cells with
  | nil => rfl
  | cons x rest ih =>
    unfold SimpleBot.actionAt at ih ⊢
    rw [List.map_cons, List.find?_cons]
    by_cases hx : x = c
    · subst hx; simp
    · have hb : (({ PlayerID := p, Position := ((x : Nat) : Int) } : MoveAction).Position ==
          ((c : Nat) : Int)) = false := by
        rw [beq_eq_false_iff_ne]
        intro h
        apply hx
        apply Fin.ext
        have h2 : ((x : Nat) : Int) = ((c : Nat) : Int) := h
        exact_mod_cast h2
      have hcx : ¬ c = x := fun h => hx h.symm
      simp only [hb]
      rw [ih]
      simp [hcx]

theorem emptyCells_ne_nil (g : GameState) (hg : Reachable g) (he : g.IsGameEnded = false) :
    ¬ ((emptyCells g.Board).map
      (fun i : Fin 9 => ({ PlayerID := g.CurrentPlayerID, Position := ((i : Nat) : Int) } :
        MoveAction))).length = 0 := by
  obtain ⟨-, -, hnf, -⟩ := (inv_of_reachable g hg).active he
  intro h
  apply hnf
  intro i hi
  have hmem := (mem_emptyCells g.Board i).mpr hi
  rw [List.length_map, List.length_eq_zero] at h
  rw [h] at hmem
  exact absurd hmem (List.not_mem_nil _)

theorem symbols_reachable (g : GameState) (hg : Reachable g) (he : g.IsGameEnded = false) :
    (g.CurrentPlayerID = 0 ∨ g.CurrentPlayerID = 1) ∧
      mapGet g.PlayerSymbols g.CurrentPlayerID = g.CurrentPlayerID + 1 ∧
      mapGet g.PlayerSymbols (1 - g.CurrentPlayerID) = 2 - g.CurrentPlayerID := by
  have hinv := inv_of_reachable g hg
  obtain ⟨-, -, -, hturn⟩ := hinv.active he
  have hcur : g.CurrentPlayerID = 0 ∨ g.CurrentPlayerID = 1 := by
    rcases hturn with h | h
    · exact Or.inl h.1
    · exact Or.inr h.1
  refine ⟨hcur, ?_, ?_⟩
  · rw [hinv.symbols]; exact mapGet_two_players _ hcur
  · rw [hinv.symbols]
    rcases hcur with h | h <;> rw [h] <;> rfl

theorem runAction_completing_move (g : GameState) (hg : Reachable g)
    (he : g.IsGameEnded = false) (q : Fin 9) (h0 : g.Board q = 0)
    (hc : completesLine g.Board (mapGet g.PlayerSymbols g.CurrentPlayerID) q) :
    (g.RunAction (some ⟨g.CurrentPlayerID, ((q : Nat) : Int)⟩)).2 = none ∧
      (g.RunAction (some ⟨g.CurrentPlayerID, ((q : Nat) : Int)⟩)).1.IsGameEnded = true ∧
      (g.RunAction (some ⟨g.CurrentPlayerID, ((q : Nat) : Int)⟩)).1.WinnerPlayerID =
        g.CurrentPlayerID := by
  have hinv := inv_of_reachable g hg
  obtain ⟨-, hnowin, -, -⟩ := hinv.active he
  obtain ⟨hcur, hsym, -⟩ := symbols_reachable g hg he
  have hq := q.isLt
  have hposs : (⟨g.CurrentPlayerID, ((q : Nat) : Int)⟩ : MoveAction).IsPossible g = true :=
    (isPossible_true_iff _ g).mpr ⟨rfl, by simp only; omega, by simp only; omega, q, rfl, h0⟩
  obtain ⟨j, hj, -, hok, -, -, -, hwin, -, -⟩ :=
    runAction_move g _ hinv.symbols hinv.cells hcur hnowin he hposs
  have hjq : j = q := by
    apply Fin.ext
    have h2 : ((j : Nat) : Int) = ((q : Nat) : Int) := hj
    exact_mod_cast h2
  subst hjq
  rw [hsym] at hc
  have hline : hasWinningLine (Function.update g.Board j (g.CurrentPlayerID + 1)) := by
    obtain ⟨p, hp, h1, h2, h3⟩ := hc
    refine ⟨p, hp, ?_, by rw [h1, h2], by rw [h2, h3]⟩
    rw [h1]
    omega
  obtain ⟨hended, hwinner, -⟩ := hwin hline
  exact ⟨hok, hended, hwinner⟩

theorem bot_takes_win (g : GameState) (p : Int) (hg : Reachable g)
    (he : g.IsGameEnded = false) (hp : g.CurrentPlayerID = p)
    (hwin : ∃ q, g.Board q = 0 ∧ completesLine g.Board (mapGet g.PlayerSymbols p) q) :
    ∃ q : Fin 9, g.Board q = 0 ∧ completesLine g.Board (mapGet g.PlayerSymbols p) q ∧
      (∀ q2, q2 < q → ¬ (g.Board q2 = 0 ∧ completesLine g.Board (mapGet g.PlayerSymbols p) q2)) ∧
      (∀ r, SimpleBot.ChooseAction (g.ToClientGameState p).2 r =
        some (some ⟨p, ((q : Nat) : Int)⟩)) ∧
      (g.RunAction (some ⟨p, ((q : Nat) : Int)⟩)).2 = none ∧
      (g.RunAction (some ⟨p, ((q : Nat) : Int)⟩)).1.IsGameEnded = true ∧
      (g.RunAction (some ⟨p, ((q : Nat) : Int)⟩)).1.WinnerPlayerID = p := by
  subst hp
  obtain ⟨q, hfind, h0, hc, hmin⟩ := find_emptyCells_some g.Board
    (fun q => completesLine g.Board (mapGet g.PlayerSymbols g.CurrentPlayerID) q) hwin
  refine ⟨q, h0, hc, hmin, ?_, runAction_completing_move g hg he q h0 hc⟩
  intro r
  unfold SimpleBot.ChooseAction
  simp only [GameState.ToClientGameState, he, Bool.false_eq_true, if_false,
    decodeActions_reachable g hg he, emptyCells_ne_nil g hg he, winningLoop_cells, hfind,
    Option.map_some']

theorem bot_blocks (g : GameState) (p : Int) (hg : Reachable g)
    (he : g.IsGameEnded = false) (hp : g.CurrentPlayerID = p)
    (hnowin : ¬ ∃ q, g.Board q = 0 ∧ completesLine g.Board (mapGet g.PlayerSymbols p) q)
    (hthreat : ∃ q, g.Board q = 0 ∧
      completesLine g.Board (mapGet g.PlayerSymbols (1 - p)) q) :
    ∃ q : Fin 9, g.Board q = 0 ∧
      completesLine g.Board (mapGet g.PlayerSymbols (1 - p)) q ∧
      (∀ q2, q2 < q →
        ¬ (g.Board q2 = 0 ∧ completesLine g.Board (mapGet g.PlayerSymbols (1 - p)) q2)) ∧
      ∀ r, SimpleBot.ChooseAction (g.ToClientGameState p).2 r =
        some (some ⟨p, ((q : Nat) : Int)⟩) := by
  subst hp
  have hnone := find_emptyCells_none g.Board
    (fun q => completesLine g.Board (mapGet g.PlayerSymbols g.CurrentPlayerID) q) hnowin
  obtain ⟨q, hfind, h0, hc, hmin⟩ := find_emptyCells_some g.Board
    (fun q => completesLine g.Board (mapGet g.PlayerSymbols (1 - g.CurrentPlayerID)) q) hthreat
  refine ⟨q, h0, hc, hmin, ?_⟩
  intro r
  unfold SimpleBot.ChooseAction
  simp only [GameState.ToClientGameState, he, Bool.false_eq_true, if_false,
    decodeActions_reachable g hg he, emptyCells_ne_nil g hg he, winningLoop_cells, hnone, hfind,
    Option.map_some', Option.map_none']

theorem actionAt_reachable (g : GameState) (c : Fin 9) (k : Int) (hk : k = ((c : Nat) : Int)) :
    SimpleBot.actionAt
        ((emptyCells g.Board).map
          (fun i : Fin 9 => ({ PlayerID := g.CurrentPlayerID, Position := ((i : Nat) : Int) } :
            MoveAction))) k =
      if g.Board c = 0 then some { PlayerID := g.CurrentPlayerID, Position := k } else none := by
  subst hk
  rw [actionAt_cells]
  by_cases h : g.Board c = 0
  · rw [if_pos ((mem_emptyCells g.Board c).mpr h), if_pos h]
  · rw [if_neg (fun hm => h ((mem_emptyCells g.Board c).mp hm)), if_neg h]

theorem bot_center_corner (g : GameState) (p : Int) (hg : Reachable g)
    (he : g.IsGameEnded = false) (hp : g.CurrentPlayerID = p)
    (hnowin : ¬ ∃ q, g.Board q = 0 ∧ completesLine g.Board (mapGet g.PlayerSymbols p) q)
    (hnothreat : ¬ ∃ q, g.Board q = 0 ∧
      completesLine g.Board (mapGet g.PlayerSymbols (1 - p)) q) :
    (g.Board 4 = 0 →
        ∀ r, SimpleBot.ChooseAction (g.ToClientGameState p).2 r = some (some ⟨p, 4⟩)) ∧
      (g.Board 4 ≠ 0 → g.Board 0 = 0 →
        ∀ r, SimpleBot.ChooseAction (g.ToClientGameState p).2 r = some (some ⟨p, 0⟩)) ∧
      (g.Board 4 ≠ 0 → g.Board 0 ≠ 0 → g.Board 2 = 0 →
        ∀ r, SimpleBot.ChooseAction (g.ToClientGameState p).2 r = some (some ⟨p, 2⟩)) ∧
      (g.Board 4 ≠ 0 → g.Board 0 ≠ 0 → g.Board 2 ≠ 0 → g.Board 6 = 0 →
        ∀ r, SimpleBot.ChooseAction (g.ToClientGameState p).2 r = some (some ⟨p, 6⟩)) ∧
      (g.Board 4 ≠ 0 → g.Board 0 ≠ 0 → g.Board 2 ≠ 0 → g.Board 6 ≠ 0 → g.Board 8 = 0 →
        ∀ r, SimpleBot.ChooseAction (g.ToClientGameState p).2 r = some (some ⟨p, 8⟩)) := by
  subst hp
  have hn1 := find_emptyCells_none g.Board
    (fun q => completesLine g.Board (mapGet g.PlayerSymbols g.CurrentPlayerID) q) hnowin
  have hn2 := find_emptyCells_none g.Board
    (fun q => completesLine g.Board (mapGet g.PlayerSymbols (1 - g.CurrentPlayerID)) q)
    hnothreat
  have h4 := actionAt_reachable g 4 4 rfl
  have h0 := actionAt_reachable g 0 0 rfl
  have h2 := actionAt_reachable g 2 2 rfl
  have h6 := actionAt_reachable g 6 6 rfl
  have h8 := actionAt_reachable g 8 8 rfl
  refine ⟨?_, ?_, ?_, ?_, ?_⟩
  · intro e4 r
    unfold SimpleBot.ChooseAction
    simp only [GameState.ToClientGameState, he, Bool.false_eq_true, if_false,
      decodeActions_reachable g hg he, emptyCells_ne_nil g hg he, winningLoop_cells, hn1, hn2,
      Option.map_none', h4, if_pos e4]
  · intro e4 e0 r
    unfold SimpleBot.ChooseAction
    simp only [GameState.ToClientGameState, he, Bool.false_eq_true, if_false,
      decodeActions_reachable g hg he, emptyCells_ne_nil g hg he, winningLoop_cells, hn1, hn2,
      Option.map_none', h4, if_neg e4, List.findSome?_cons, h0, if_pos e0]
  · intro e4 e0 e2 r
    unfold SimpleBot.ChooseAction
    simp only [GameState.ToClientGameState, he, Bool.false_eq_true, if_false,
      decodeActions_reachable g hg he, emptyCells_ne_nil g hg he, winningLoop_cells, hn1, hn2,
      Option.map_none', h4, if_neg e4, List.findSome?_cons, h0, if_neg e0, h2, if_pos e2]
  · intro e4 e0 e2 e6 r
    unfold SimpleBot.ChooseAction
    simp only [GameState.ToClientGameState, he, Bool.false_eq_true, if_false,
      decodeActions_reachable g hg he, emptyCells_ne_nil g hg he, winningLoop_cells, hn1, hn2,
      Option.map_none', h4, if_neg e4, List.findSome?_cons, h0, if_neg e0, h2, if_neg e2, h6,
      if_pos e6]
  · intro e4 e0 e2 e6 e8 r
    unfold SimpleBot.ChooseAction
    simp only [GameState.ToClientGameState, he, Bool.false_eq_true, if_false,
      decodeActions_reachable g hg he, emptyCells_ne_nil g hg he, winningLoop_cells, hn1, hn2,
      Option.map_none', h4, if_neg e4, List.findSome?_cons, h0, if_neg e0, h2, if_neg e2, h6,
      if_neg e6, h8, if_pos e8]

/-! ## The two bots against each other -/

theorem all_decode_reachable (g : GameState) (hg : Reachable g) :
    ∀ raw ∈ g.PossibleActions,
      ∃ a, DeserializeAction raw = .ok a ∧ 0 ≤ a.Position ∧ a.Position ≤ 8 := by
  have hinv := inv_of_reachable g hg
  intro raw hraw
  cases he : g.IsGameEnded with
  | true =>
    rw [hinv.cache] at hraw
    unfold GameState.CalculatePossibleActions at hraw
    rw [he] at hraw
    exact absurd hraw (List.not_mem_nil _)
  | false =>
    have hdec := decodeActions_reachable g hg he
    rw [hinv.cache, calculatePossibleActions_active g he] at hraw
    unfold serializeActions at hraw
    obtain ⟨a, ha, hm⟩ := List.mem_filterMap.mp hraw
    obtain ⟨i, -, hi⟩ := List.mem_map.mp ha
    have hmem : a ∈ SimpleBot.decodeActions g.PossibleActions := by
      rw [hdec]; exact ha
    obtain ⟨raw2, hraw2, hd2⟩ := (mem_decodeActions _ a).mp hmem
    have hi9 := i.isLt
    have hrange : 0 ≤ a.Position ∧ a.Position ≤ 8 := by
      rw [← hi]
      simp only
      omega
    obtain ⟨obtained, hob, hdo⟩ := deserialize_marshal a
      (by rw [← hi]
          obtain ⟨hc, -, -⟩ := symbols_reachable g hg he
          simp only
          rcases hc with h | h <;> rw [h] <;> decide)
      ⟨le_trans (by decide) hrange.1, lt_of_le_of_lt hrange.2 (by decide)⟩
    rw [hob] at hm
    cases hm
    exact ⟨a, hdo, hrange⟩

/-- C11: in a reachable state that is not ended, with current player `p` and
the snapshot for `p`: if placing the mark of `p` on some empty cell would
complete a line, `ChooseAction` returns, whatever the random source draws, the
placement of `p` at the lowest-indexed such cell, and applying that action with
`RunAction` succeeds and ends the game with `WinnerPlayerID = p`. -/
theorem simpleBot_wins_now (g : GameState) (p : Int) (hg : Reachable g)
    (he : g.IsGameEnded = false) (hp : g.CurrentPlayerID = p)
    (hwin : ∃ q, g.Board q = 0 ∧ completesLine g.Board (mapGet g.PlayerSymbols p) q) :
    ∃ q : Fin 9, g.Board q = 0 ∧ completesLine g.Board (mapGet g.PlayerSymbols p) q ∧
      (∀ q2, q2 < q → ¬ (g.Board q2 = 0 ∧ completesLine g.Board (mapGet g.PlayerSymbols p) q2)) ∧
      (∀ r, SimpleBot.ChooseAction (g.ToClientGameState p).2 r =
        some (some ⟨p, ((q : Nat) : Int)⟩)) ∧
      (g.RunAction (some ⟨p, ((q : Nat) : Int)⟩)).2 = none ∧
      (g.RunAction (some ⟨p, ((q : Nat) : Int)⟩)).1.IsGameEnded = true ∧
      (g.RunAction (some ⟨p, ((q : Nat) : Int)⟩)).1.WinnerPlayerID = p :=
  bot_takes_win g p hg he hp hwin

/-- C11 (witness): before the winning move of `TestWinCondition` player 0 has
marks on cells 0 and 1 and cell 2 is empty; the bot returns `MoveAction{0, 2}`,
which ends the game with winner 0. -/
theorem simpleBot_wins_now_witness :
    SimpleBot.ChooseAction (beforeWinningMove.ToClientGameState 0).2 0 = some (some ⟨0, 2⟩) ∧
      (beforeWinningMove.RunAction (some ⟨0, 2⟩)).1.WinnerPlayerID = 0 ∧
      ∃ q : Fin 9, beforeWinningMove.Board q = 0 ∧
        (∀ r, SimpleBot.ChooseAction (beforeWinningMove.ToClientGameState 0).2 r =
          some (some ⟨0, ((q : Nat) : Int)⟩)) ∧
        (beforeWinningMove.RunAction (some ⟨0, ((q : Nat) : Int)⟩)).1.WinnerPlayerID = 0 := by
  obtain ⟨q, h0, -, -, hch, -, -, hw⟩ := simpleBot_wins_now beforeWinningMove 0
    (reachable_runMoves _ _ Reachable.new) (by decide) (by decide) ⟨2, by decide, by decide⟩
  exact ⟨by decide, by decide, q, h0, hch, hw⟩

/-- C12: in a reachable state that is not ended, with current player `p` and
the snapshot for `p`: if no empty cell completes a line for the mark of `p` but
some empty cell completes one for the mark of the opponent, `ChooseAction`
returns, whatever the random source draws, the placement of `p` at the
lowest-indexed such cell. -/
theorem simpleBot_blocks (g : GameState) (p : Int) (hg : Reachable g)
    (he : g.IsGameEnded = false) (hp : g.CurrentPlayerID = p)
    (hnowin : ¬ ∃ q, g.Board q = 0 ∧ completesLine g.Board (mapGet g.PlayerSymbols p) q)
    (hthreat : ∃ q, g.Board q = 0 ∧
      completesLine g.Board (mapGet g.PlayerSymbols (1 - p)) q) :
    ∃ q : Fin 9, g.Board q = 0 ∧
      completesLine g.Board (mapGet g.PlayerSymbols (1 - p)) q ∧
      (∀ q2, q2 < q →
        ¬ (g.Board q2 = 0 ∧ completesLine g.Board (mapGet g.PlayerSymbols (1 - p)) q2)) ∧
      ∀ r, SimpleBot.ChooseAction (g.ToClientGameState p).2 r =
        some (some ⟨p, ((q : Nat) : Int)⟩) :=
  bot_blocks g p hg he hp hnowin hthreat

/-- C12 (witness): on the board `[1,1,0,0,2,0,0,0,0]` with player 1 to move the
bot returns `MoveAction{1, 2}`, blocking the top row. -/
theorem simpleBot_blocks_witness :
    (∀ i : Fin 9, blockState.Board i = ![1, 1, 0, 0, 2, 0, 0, 0, 0] i) ∧
      blockState.CurrentPlayerID = 1 ∧
      SimpleBot.ChooseAction (blockState.ToClientGameState 1).2 0 = some (some ⟨1, 2⟩) ∧
      ∃ q : Fin 9, blockState.Board q = 0 ∧
        completesLine blockState.Board (mapGet blockState.PlayerSymbols (1 - 1)) q ∧
        ∀ r, SimpleBot.ChooseAction (blockState.ToClientGameState 1).2 r =
          some (some ⟨1, ((q : Nat) : Int)⟩) := by
  obtain ⟨q, h0, hc, -, hch⟩ := simpleBot_blocks blockState 1
    (reachable_runMoves _ _ Reachable.new) (by decide) (by decide) (by decide)
    ⟨2, by decide, by decide⟩
  exact ⟨by decide, by decide, by decide, q, h0, hc, hch⟩

/-- C13: for every snapshot whose legal-action entries all decode to placements
at positions 0..8 and every draw of the random source, `ChooseAction` returns
without a fault; it returns `nil` iff the snapshot reports an ended game or has
no legal action, and otherwise an action that one of the entries decodes to. -/
theorem simpleBot_contract (s : ClientGameState) (r : Nat)
    (hdec : ∀ raw ∈ s.PossibleActions,
      ∃ a, DeserializeAction raw = .ok a ∧ 0 ≤ a.Position ∧ a.Position ≤ 8) :
    ∃ res, SimpleBot.ChooseAction s r = some res ∧
      (res = none ↔ s.IsGameEnded = true ∨ s.PossibleActions = []) ∧
      ∀ a, res = some a → ∃ raw ∈ s.PossibleActions, DeserializeAction raw = .ok a :=
  chooseAction_contract s r hdec

/-- C13 (witness): the snapshot of `New()` for player 1 has nine entries that
decode to placements at positions 0..8, and the bot returns one of them; the
snapshot of the ended game of `TestWinCondition` makes it return `nil`. -/
theorem simpleBot_contract_witness :
    (∃ res, SimpleBot.ChooseAction (New.ToClientGameState 1).2 3 = some res ∧
        (res = none ↔ (New.ToClientGameState 1).2.IsGameEnded = true ∨
          (New.ToClientGameState 1).2.PossibleActions = []) ∧
        ∀ a, res = some a →
          ∃ raw ∈ (New.ToClientGameState 1).2.PossibleActions, DeserializeAction raw = .ok a) ∧
      SimpleBot.ChooseAction ((runMoves New winMoves).ToClientGameState 1).2 3 = some none :=
  ⟨simpleBot_contract (New.ToClientGameState 1).2 3 (all_decode_reachable New Reachable.new),
    by decide⟩

/-- C14 (as amended): for the snapshot `New().ToClientGameState(1)` the bot
returns, whatever the random source draws, the placement at position 4 with
`playerID` 0: the cached legal actions of `New()` are those of the current
player 0, and the bot returns one of them as it is. -/
theorem simpleBot_initial_snapshot (r : Nat) :
    SimpleBot.ChooseAction (New.ToClientGameState 1).2 r = some (some ⟨0, 4⟩) :=
  rfl

/-- C14 (counterexample): on `New().ToClientGameState(1)` the returned action
is `MoveAction{0, 4}`, not `MoveAction{1, 4}`. -/
theorem simpleBot_initial_not_player_one :
    SimpleBot.ChooseAction (New.ToClientGameState 1).2 0 = some (some ⟨0, 4⟩) ∧
      SimpleBot.ChooseAction (New.ToClientGameState 1).2 0 ≠ some (some ⟨1, 4⟩) :=
  ⟨by decide, by decide⟩

/-- C20: in a reachable state that is not ended, with current player `p` and
the snapshot for `p`, when no empty cell completes a line for either mark: if
cell 4 is empty the bot returns the placement at 4; otherwise it returns the
placement at the first empty cell among 0, 2, 6, 8 in that order, if there is
one.  In each case the result is the same for every draw of the random
source. -/
theorem simpleBot_centre_then_corner (g : GameState) (p : Int) (hg : Reachable g)
    (he : g.IsGameEnded = false) (hp : g.CurrentPlayerID = p)
    (hnowin : ¬ ∃ q, g.Board q = 0 ∧ completesLine g.Board (mapGet g.PlayerSymbols p) q)
    (hnothreat : ¬ ∃ q, g.Board q = 0 ∧
      completesLine g.Board (mapGet g.PlayerSymbols (1 - p)) q) :
    (g.Board 4 = 0 →
        ∀ r, SimpleBot.ChooseAction (g.ToClientGameState p).2 r = some (some ⟨p, 4⟩)) ∧
      (g.Board 4 ≠ 0 → g.Board 0 = 0 →
        ∀ r, SimpleBot.ChooseAction (g.ToClientGameState p).2 r = some (some ⟨p, 0⟩)) ∧
      (g.Board 4 ≠ 0 → g.Board 0 ≠ 0 → g.Board 2 = 0 →
        ∀ r, SimpleBot.ChooseAction (g.ToClientGameState p).2 r = some (some ⟨p, 2⟩)) ∧
      (g.Board 4 ≠ 0 → g.Board 0 ≠ 0 → g.Board 2 ≠ 0 → g.Board 6 = 0 →
        ∀ r, SimpleBot.ChooseAction (g.ToClientGameState p).2 r = some (some ⟨p, 6⟩)) ∧
      (g.Board 4 ≠ 0 → g.Board 0 ≠ 0 → g.Board 2 ≠ 0 → g.Board 6 ≠ 0 → g.Board 8 = 0 →
        ∀ r, SimpleBot.ChooseAction (g.ToClientGameState p).2 r = some (some ⟨p, 8⟩)) :=
  bot_center_corner g p hg he hp hnowin hnothreat

/-- C20 (witness): from `New()` with player 0 to move the bot returns position
4; after X has taken the centre, player 1 gets the corner 0. -/
theorem simpleBot_centre_then_corner_witness :
    (New.Board 4 = 0 ∧
        ∀ r, SimpleBot.ChooseAction (New.ToClientGameState 0).2 r = some (some ⟨0, 4⟩)) ∧
      (centreTakenState.Board 4 ≠ 0 ∧ centreTakenState.Board 0 = 0 ∧
        ∀ r, SimpleBot.ChooseAction (centreTakenState.ToClientGameState 1).2 r =
          some (some ⟨1, 0⟩)) :=
  ⟨⟨by decide,
      (simpleBot_centre_then_corner New 0 Reachable.new (by decide) (by decide) (by decide)
        (by decide)).1 (by decide)⟩,
    ⟨by decide, by decide,
      (simpleBot_centre_then_corner centreTakenState 1 (reachable_runMoves _ _ Reachable.new)
        (by decide) (by decide) (by decide) (by decide)).2.1 (by decide) (by decide)⟩⟩

end TicTacToe
